import Mathlib

/-!
Shallow embedding of the BMF viewer's reference-graph construction pipeline:
identifier parsing and reference extraction (src/viewer/src/utils/patterns.ts,
parser.ts), graph building (src/viewer/src/utils/graphBuilder.ts), and the
epic-connectivity / community-detection / position-resolution code
(src/viewer/src/components/NavigationGraph.tsx).

Dynamic YAML values are modelled by the tagged recursive type `Yaml`
(string | integer | null | list | map).  JavaScript truthiness, property
lookup and string coercion are modelled explicitly by the `js*` helpers.
Booleans and floating-point numbers are not inhabited by the model's value
type; exotic `ToPrimitive` coercions of lists/maps in `>` comparisons are
approximated as false (none of the modelled code paths exercises them).
-/

namespace BMF

/-- A parsed YAML value (result of `YAML.parse`). -/
inductive Yaml where
  | str (s : String)
  | num (n : Int)
  | null
  | arr (items : List Yaml)
  | map (entries : List (String × Yaml))
deriving Repr

/-- First-match association-list lookup (JS objects / `Map.get`: keys are
unique, so first match is the match). -/
def lookupStr {α : Type} : List (String × α) → String → Option α
  | [], _ => none
  | (k, v) :: rest, key => if k = key then some v else lookupStr rest key

/-- JS property access `value.key` for the fields the code reads: a map
yields the entry's value, every other value yields `undefined` (`none`). -/
def jsGet : Yaml → String → Option Yaml
  | .map es, k => lookupStr es k
  | _, _ => none

/-- JS truthiness of a value. -/
def jsTruthy : Yaml → Bool
  | .str s => !s.isEmpty
  | .num n => n != 0
  | .null => false
  | .arr _ => true
  | .map _ => true

/-- JS truthiness of a possibly-undefined value. -/
def jsTruthyOpt : Option Yaml → Bool
  | none => false
  | some v => jsTruthy v

/-- The JS `length` property: strings and arrays have their length, a plain
object has whatever its own `length` entry holds, other values have none. -/
def jsLengthProp : Yaml → Option Yaml
  | .str s => some (.num s.length)
  | .arr l => some (.num l.length)
  | .map es => lookupStr es "length"
  | _ => none

/-- An ASCII decimal digit. -/
def isDigitJs (c : Char) : Bool := '0' ≤ c && c ≤ '9'

/-- Numeric value of a digit run. -/
def digitsVal (ds : List Char) : Nat :=
  ds.foldl (fun a c => a * 10 + (c.toNat - '0'.toNat)) 0

/-- JS `ToNumber` on a string, restricted to optionally-signed decimal
integers (hex/float/whitespace forms are not exercised by the model);
the empty string converts to 0, anything else non-numeric to NaN
(`none`). -/
def strToIntJs (s : String) : Option Int :=
  match s.toList with
  | [] => some 0
  | '-' :: ds =>
    if !ds.isEmpty && ds.all isDigitJs then some (-(digitsVal ds : Int)) else none
  | ds => if ds.all isDigitJs then some ((digitsVal ds : Nat) : Int) else none

/-- The JS comparison `v > 0` for a possibly-undefined value: numbers
compare directly, numeric strings are coerced, everything else
(undefined, null, non-numeric strings, objects) compares false. -/
def jsGtZero : Option Yaml → Bool
  | some (.num n) => 0 < n
  | some (.str s) =>
    match strToIntJs s with
    | some n => 0 < n
    | none => false
  | _ => false

mutual
/-- JS `String(v)` coercion for the values the code interpolates. -/
def jsToString : Yaml → String
  | .str s => s
  | .num n => toString n
  | .null => "null"
  | .arr l => jsToStringList l
  | .map _ => "[object Object]"

/-- JS array-to-string: elements joined with commas, null rendered empty. -/
def jsToStringList : List Yaml → String
  | [] => ""
  | [v] => match v with | .null => "" | _ => jsToString v
  | v :: rest =>
    (match v with | .null => "" | _ => jsToString v) ++ "," ++ jsToStringList rest
end

/-- JS `a || b` on strings: empty string is falsy. -/
def jsOrStr (a b : String) : String := if a = "" then b else a

/-! ### patterns.ts — reference regexes

`REFERENCE_PATTERN = /\$([a-z]+)[.:]([a-z0-9._:-]+)/i` and
`BARE_COMPONENT_PATTERN = /\bcomponent:([a-z0-9._:-]+)/i` (plus their `g`
versions).  Both carry the `i` flag, so the character classes and the
literal `component` match letters of either case.  The scanners below
reproduce the regex engine's left-to-right first-match scan; the greedy
`+` repetitions need no backtracking because the adjacent classes are
disjoint from what follows them. -/

/-- `[a-z]` under the `i` flag: an ASCII letter of either case. -/
def isLetterCI (c : Char) : Bool :=
  ('a' ≤ c && c ≤ 'z') || ('A' ≤ c && c ≤ 'Z')

/-- An ASCII digit. -/
def isDigitChar (c : Char) : Bool := '0' ≤ c && c ≤ '9'

/-- `[a-z0-9._:-]` under the `i` flag. -/
def isRefPathChar (c : Char) : Bool :=
  isLetterCI c || isDigitChar c || c == '.' || c == '_' || c == ':' || c == '-'

/-- A regex word character (`\w`), for `\b` boundaries. -/
def isWordChar (c : Char) : Bool :=
  isLetterCI c || isDigitChar c || c == '_'

/-- Try `REFERENCE_PATTERN` anchored at the head of the character list.
On success returns the type token, the path, and the characters after the
match. -/
def sigilMatchAt : List Char → Option (String × String × List Char)
  | [] => none
  | c :: rest =>
    if c == '$' then
      if (rest.takeWhile isLetterCI).isEmpty then none
      else
        match rest.drop (rest.takeWhile isLetterCI).length with
        | sep :: rest2 =>
          if sep == '.' || sep == ':' then
            if (rest2.takeWhile isRefPathChar).isEmpty then none
            else
              some (String.mk (rest.takeWhile isLetterCI),
                String.mk (rest2.takeWhile isRefPathChar),
                rest2.drop (rest2.takeWhile isRefPathChar).length)
          else none
        | [] => none
    else none

/-- Global scan for `REFERENCE_PATTERN`: at every position try to match;
on success continue after the match, otherwise advance one character.
`fuel` bounds the recursion; each step consumes at least one character,
so `fuel = length` is exact. -/
def findSigilsFuel : Nat → List Char → List (String × String)
  | 0, _ => []
  | _, [] => []
  | fuel + 1, l@(_ :: tl) =>
    match sigilMatchAt l with
    | some (t, p, rest) => (t, p) :: findSigilsFuel fuel rest
    | none => findSigilsFuel fuel tl

/-- All `REFERENCE_PATTERN` matches in a string, left to right. -/
def findSigils (s : String) : List (String × String) :=
  findSigilsFuel s.length s.toList

/-- Case-insensitive literal match: strip `pat` (given lowercase) from the
head of the input, comparing lowered characters. -/
def stripCI : List Char → List Char → Option (List Char)
  | [], l => some l
  | _, [] => none
  | pc :: ps, c :: cs => if c.toLower == pc then stripCI ps cs else none

/-- Try `BARE_COMPONENT_PATTERN` (without its `\b`) anchored at the head:
the literal `component:` case-insensitively, then a nonempty path. -/
def bareMatchAt (l : List Char) : Option (String × List Char) :=
  match stripCI "component:".toList l with
  | none => none
  | some rest =>
    let path := rest.takeWhile isRefPathChar
    if path.isEmpty then none
    else some (String.mk path, rest.drop path.length)

/-- Global scan for `BARE_COMPONENT_PATTERN`.  `prev` is the character
before the current position (none at the start), used for the `\b`
boundary: the literal starts with a word character, so the boundary holds
iff the preceding character is absent or not a word character.  After a
match the scan resumes past it, with `prev` the match's last character. -/
def findBaresFuel : Nat → Option Char → List Char → List String
  | 0, _, _ => []
  | _, _, [] => []
  | fuel + 1, prev, l@(c :: tl) =>
    let boundary := match prev with
      | none => true
      | some pc => !isWordChar pc
    if boundary then
      match bareMatchAt l with
      | some (path, rest) => path :: findBaresFuel fuel (some path.back) rest
      | none => findBaresFuel fuel (some c) tl
    else findBaresFuel fuel (some c) tl

/-- All `BARE_COMPONENT_PATTERN` matches in a string, left to right. -/
def findBares (s : String) : List String :=
  findBaresFuel s.length none s.toList

/-- `path.replace(/\./g, ':')`. -/
def dotsToColons (s : String) : String :=
  String.mk (s.toList.map (fun c => if c == '.' then ':' else c))

/-- Result of `extractReference`. -/
structure ExtractedRef where
  reference : String
  referenceType : String
deriving Repr, DecidableEq

/-- patterns.ts `extractReference`: first try the sigil pattern over the
whole string (non-global `exec` = first match), else the first bare
component match; normalize dots in the path to colons. -/
def extractReference (value : String) : Option ExtractedRef :=
  match findSigils value with
  | (t, p) :: _ => some ⟨t ++ ":" ++ dotsToColons p, t⟩
  | [] =>
    match findBares value with
    | p :: _ => some ⟨"component:" ++ dotsToColons p, "component"⟩
    | [] => none

/-! ### parser.ts — entities, components, reference extraction

Documents are modelled post-`YAML.parse`: a document is an
`Except String Yaml`, `.error` standing for the exception `YAML.parse`
throws on malformed text.  `parseBmfYaml` itself never catches that
exception, so the model propagates it. -/

/-- The fixed entity type vocabulary (`ENTITY_TYPES`). -/
def ENTITY_TYPES : List String :=
  ["screen", "dialog", "event", "action", "component", "layout", "entity", "context"]

/-- `key.split(':')` (JS `String.split` with a single-character
separator): the list of colon-free segments, empty segments included. -/
def splitColonAux : List Char → List Char → List String
  | [], acc => [String.mk acc.reverse]
  | c :: rest, acc =>
    if c == ':' then String.mk acc.reverse :: splitColonAux rest []
    else splitColonAux rest (c :: acc)

/-- `key.split(':')` on a string. -/
def splitColon (s : String) : List String := splitColonAux s.toList []

/-- parser.ts `parseEntityId`: split on `:`; 1 segment ⇒ type = name, no
epic; 2 segments ⇒ type:name; 3+ ⇒ type:epic:name with the tail re-joined
by colons.  Unrecognized type tokens yield `none`. -/
def parseEntityId (key : String) : Option (String × String × String) :=
  match splitColon key with
  | [single] =>
    if ENTITY_TYPES.contains single then some (single, "", single) else none
  | t :: restParts =>
    if ENTITY_TYPES.contains t then
      match restParts with
      | [n] => some (t, "", n)
      | e :: nameRest => some (t, e, String.intercalate ":" nameRest)
      | [] => none
    else none
  | [] => none

/-- A raw extracted reference (`BmfReference`): source entity id,
normalized target id, target type token, and the diagnostic origin
path. -/
structure BmfReference where
  source : String
  target : String
  targetType : String
  path : String
deriving Repr, DecidableEq

/-- All BMF references found in one string by the two global patterns:
every sigil match first, then every bare component match (the two loops
in `extractReferences` run in that order). -/
def refsOfString (s sourceId path : String) : List BmfReference :=
  (findSigils s).map (fun tp =>
    ⟨sourceId, tp.1 ++ ":" ++ dotsToColons tp.2, tp.1, path⟩) ++
  (findBares s).map (fun p =>
    ⟨sourceId, "component:" ++ dotsToColons p, "component", path⟩)

mutual
/-- parser.ts `extractReferences`: walk every string reachable under a
value, recursing through arrays (with `[i]` path steps) and objects
(with `.key` path steps). -/
def extractReferences : Yaml → String → String → List BmfReference
  | .str s, sourceId, path => refsOfString s sourceId path
  | .arr items, sourceId, path => extractRefsArr items sourceId path 0
  | .map es, sourceId, path => extractRefsMap es sourceId path
  | _, _, _ => []

/-- Array leg of `extractReferences`. -/
def extractRefsArr : List Yaml → String → String → Nat → List BmfReference
  | [], _, _, _ => []
  | v :: rest, sourceId, path, index =>
    extractReferences v sourceId (path ++ "[" ++ toString index ++ "]") ++
      extractRefsArr rest sourceId path (index + 1)

/-- Object leg of `extractReferences`. -/
def extractRefsMap : List (String × Yaml) → String → String → List BmfReference
  | [], _, _ => []
  | kv :: rest, sourceId, path =>
    extractReferences kv.2 sourceId (path ++ "." ++ kv.1) ++
      extractRefsMap rest sourceId path
end

/-- A parsed component.  The display-only fields the parser copies
verbatim and nothing ever reads back (`label`, `icon`, `placeholder`,
`default`, `when`) are omitted from the model. -/
inductive BmfComponent where
  | mk (id : String) (type : String) (value : Option Yaml) (action : Option Yaml)
      (components : Option (List BmfComponent))
deriving Repr

/-- Component id. -/
def BmfComponent.id : BmfComponent → String
  | .mk i _ _ _ _ => i

/-- Component display type. -/
def BmfComponent.type : BmfComponent → String
  | .mk _ t _ _ _ => t

/-- Component raw `value` field. -/
def BmfComponent.value : BmfComponent → Option Yaml
  | .mk _ _ v _ _ => v

/-- Component raw `action` field. -/
def BmfComponent.action : BmfComponent → Option Yaml
  | .mk _ _ _ a _ => a

/-- Component children (`undefined` unless the raw item's `components`
field was truthy). -/
def BmfComponent.components : BmfComponent → Option (List BmfComponent)
  | .mk _ _ _ _ c => c

/-- `Array.isArray` coercion used by `parseComponents`: a non-array
yields the empty component list. -/
def asArrOrNil : Yaml → List Yaml
  | .arr l => l
  | _ => []

mutual
/-- Size of a value, the fuel bound for the fueled walkers below. -/
def ySize : Yaml → Nat
  | .str _ => 1
  | .num _ => 1
  | .null => 1
  | .arr l => 1 + lSize l
  | .map es => 1 + eSize es

/-- Size of a value list. -/
def lSize : List Yaml → Nat
  | [] => 0
  | v :: rest => 1 + ySize v + lSize rest

/-- Size of a key/value entry list. -/
def eSize : List (String × Yaml) → Nat
  | [] => 0
  | kv :: rest => 1 + ySize kv.2 + eSize rest
end

/-- parser.ts `parseComponents` body, recursion bounded by fuel (each
step strictly shrinks `lSize` of the processed list, so `lSize` of the
initial list is enough fuel; the `0` branch is unreachable from
`parseComponents`).  Per raw item: id from a truthy `id` field, else a
string `value`, else `<parentId>_<index>`; type from a truthy `type`
field, else `components` when a truthy `components` field exists, else
`unknown`; children parsed recursively with the resolved id as prefix. -/
def parseCompsFuel : Nat → List Yaml → String → Nat → List BmfComponent
  | 0, _, _, _ => []
  | _ + 1, [], _, _ => []
  | fuel + 1, item :: rest, parentId, index =>
    let valueF := jsGet item "value"
    let compId : String :=
      if jsTruthyOpt (jsGet item "id") then jsToString ((jsGet item "id").getD .null)
      else
        match valueF with
        | some (.str s) => if s = "" then parentId ++ "_" ++ toString index else s
        | _ => parentId ++ "_" ++ toString index
    let compType : String :=
      if jsTruthyOpt (jsGet item "type") then jsToString ((jsGet item "type").getD .null)
      else if jsTruthyOpt (jsGet item "components") then "components"
      else "unknown"
    let comps : Option (List BmfComponent) :=
      match jsGet item "components" with
      | some cv =>
        if jsTruthy cv then some (parseCompsFuel fuel (asArrOrNil cv) compId 0) else none
      | none => none
    .mk compId compType valueF (jsGet item "action") comps ::
      parseCompsFuel fuel rest parentId (index + 1)

/-- parser.ts `parseComponents` entry point: non-arrays parse to `[]`. -/
def parseComponents (raw : Option Yaml) (parentId : String) : List BmfComponent :=
  match raw with
  | some (.arr l) => parseCompsFuel (lSize l) l parentId 0
  | _ => []

/-- A parsed entity.  Display passthrough fields never read by the graph
builder (`description`, `props`, `data`, `layout`, `to`) are omitted.
`effects` keeps the raw field value: the source casts it to `unknown[]`
without checking, which the builder's truthiness tests then observe. -/
structure BmfEntity where
  id : String
  type : String
  epic : String
  name : String
  tags : List String
  components : List BmfComponent
  effects : Option Yaml
  raw : Yaml
deriving Repr

/-- Output of a parse pass (`ParsedBmf`): entity map as an insertion-
ordered association list with unique keys, flat reference list, sorted
epic and tag lists, and the set of referenced target ids. -/
structure ParsedBmf where
  entities : List (String × BmfEntity)
  references : List BmfReference
  epics : List String
  tags : List String
  referencedIds : List String
deriving Repr

/-- JS `Map.set`: overwrite in place (keeping the original insertion
position) or append. -/
def jsMapSet {α : Type} : List (String × α) → String → α → List (String × α)
  | [], k, v => [(k, v)]
  | (k', v') :: rest, k, v =>
    if k' = k then (k', v) :: rest else (k', v') :: jsMapSet rest k v

/-- JS `Set.add`: append unless already present. -/
def addUnique (l : List String) (s : String) : List String :=
  if l.contains s then l else l ++ [s]

/-- Stable insertion step for `stableSortBy`. -/
def insertSorted {α : Type} (le : α → α → Bool) (x : α) : List α → List α
  | [] => [x]
  | y :: ys => if le x y then x :: y :: ys else y :: insertSorted le x ys

/-- Stable sort (models the stable JS `Array.prototype.sort`): an
element goes before the first already-placed element it compares
less-or-equal to, so freshly equal elements keep their original order. -/
def stableSortBy {α : Type} (le : α → α → Bool) : List α → List α
  | [] => []
  | x :: xs => insertSorted le x (stableSortBy le xs)

/-- `Array.from(set).sort()`. -/
def sortStrings (l : List String) : List String :=
  stableSortBy (fun a b => a ≤ b) l

/-- `typeof value === 'object'` together with truthiness: arrays and
maps pass, null and scalars do not. -/
def isObjValue : Yaml → Bool
  | .arr _ => true
  | .map _ => true
  | _ => false

/-- The entity's `tags` field: a string-array field with non-string
entries dropped. -/
def entityTagsOf (v : Yaml) : List String :=
  match jsGet v "tags" with
  | some (.arr l) => l.filterMap (fun y => match y with | .str s => some s | _ => none)
  | _ => []

/-- The top-level entries `Object.entries(parsed)` iterates: a map's
entries, an array's index-keyed entries, nothing for scalars or null
(`!parsed || typeof parsed !== 'object'`). -/
def topEntries : Yaml → Option (List (String × Yaml))
  | .map es => some es
  | .arr items => some (items.enum.map (fun iy => (toString iy.1, iy.2)))
  | _ => none

/-- The per-entity loop of `parseBmfYaml`: accumulates entities (map
semantics, so a repeated id is last-write-wins), references, epics and
tags in document order. -/
def parseEntitiesGo : List (String × Yaml) → List (String × BmfEntity) → List BmfReference →
    List String → List String →
    List (String × BmfEntity) × List BmfReference × List String × List String
  | [], ents, refs, eps, tgs => (ents, refs, eps, tgs)
  | (key, value) :: rest, ents, refs, eps, tgs =>
    match parseEntityId key with
    | none => parseEntitiesGo rest ents refs eps tgs
    | some tyEpicName =>
      if isObjValue value then
        let entityTags := entityTagsOf value
        let entity : BmfEntity :=
          ⟨key, tyEpicName.1, tyEpicName.2.1, tyEpicName.2.2, entityTags,
            parseComponents (jsGet value "components") key, jsGet value "effects", value⟩
        parseEntitiesGo rest (jsMapSet ents key entity)
          (refs ++ extractReferences value key "")
          (if tyEpicName.2.1 = "" then eps else addUnique eps tyEpicName.2.1)
          (entityTags.foldl addUnique tgs)
      else parseEntitiesGo rest ents refs eps tgs

/-- `referencedIds`: the set of all reference targets, in first-seen
order. -/
def referencedIdsOf (refs : List BmfReference) : List String :=
  refs.foldl (fun acc r => addUnique acc r.target) []

/-- parser.ts `parseBmfYaml` applied to an already-parsed value. -/
def parseBmfValue (v : Yaml) : ParsedBmf :=
  match topEntries v with
  | none => ⟨[], [], [], [], []⟩
  | some es =>
    let st := parseEntitiesGo es [] [] [] []
    ⟨st.1, st.2.1, sortStrings st.2.2.1, sortStrings st.2.2.2, referencedIdsOf st.2.1⟩

/-- parser.ts `parseBmfYaml` on a document: a document whose text failed
to parse is the thrown `YAML.parse` exception, which this function does
not catch. -/
def parseBmfYaml : Except String Yaml → Except String ParsedBmf
  | .error e => .error e
  | .ok v => .ok (parseBmfValue v)

/-- The per-file loop of `parseBmfFiles`.  There is no try/catch around
`parseBmfYaml`, so the first failing document's exception aborts the
whole fold and every accumulated entity is lost. -/
def parseBmfFilesGo : List (String × Except String Yaml) → List (String × BmfEntity) →
    List BmfReference → List String → List String → Except String ParsedBmf
  | [], ents, refs, eps, tgs =>
    .ok ⟨ents, refs, sortStrings eps, sortStrings tgs, referencedIdsOf refs⟩
  | (_, doc) :: rest, ents, refs, eps, tgs =>
    match parseBmfYaml doc with
    | .error e => .error e
    | .ok p =>
      parseBmfFilesGo rest (p.entities.foldl (fun acc kv => jsMapSet acc kv.1 kv.2) ents)
        (refs ++ p.references) (p.epics.foldl addUnique eps) (p.tags.foldl addUnique tgs)

/-- parser.ts `parseBmfFiles`: merge every document's parse, identifier
collisions across documents resolving last-write-wins. -/
def parseBmfFiles (files : List (String × Except String Yaml)) : Except String ParsedBmf :=
  parseBmfFilesGo files [] [] [] []

/-! ### graphBuilder.ts — flattening and graph construction -/

/-- A flattened component (`FlatComponent`); the display-only `label`
field is omitted. -/
structure FlatComponent where
  id : String
  type : String
  depth : Nat
  reference : Option String
  referenceType : Option String
deriving Repr, DecidableEq

/-- `Array.isArray(x) ? x : [x]`, used for if/then/else branches. -/
def toBranch : Yaml → List Yaml
  | .arr l => l
  | v => [v]

/-- graphBuilder.ts `extractConditionComponents`, recursion bounded by
fuel (every recursive call strictly shrinks `lSize`, so `lSize` of the
initial list is enough fuel; the `0` branch is unreachable from the
entry points).  A string entry yields one synthetic `effect` component
when it contains a reference, and bumps the entry counter either way; an
object with an `if` key yields a `condition` component plus `then` /
`else` marker components one level deeper, each truthy branch recursing
two levels deeper with a fresh counter; any other entry is skipped
without bumping the counter. -/
def extractCondFuel : Nat → List Yaml → String → Nat → Nat → List FlatComponent
  | 0, _, _, _, _ => []
  | _ + 1, [], _, _, _ => []
  | fuel + 1, cond :: rest, parentId, depth, condIndex =>
    match cond with
    | .str s =>
      (match extractReference s with
       | some r =>
         [⟨parentId ++ "_effect_" ++ toString condIndex, "effect", depth,
           some r.reference, some r.referenceType⟩]
       | none => []) ++
        extractCondFuel fuel rest parentId depth (condIndex + 1)
    | .map es =>
      if (lookupStr es "if").isSome then
        let condId := parentId ++ "_cond_" ++ toString condIndex
        let thenPart :=
          match lookupStr es "then" with
          | some tv =>
            if jsTruthy tv then
              ⟨condId ++ "_then", "then", depth + 1, none, none⟩ ::
                extractCondFuel fuel (toBranch tv) (condId ++ "_then") (depth + 2) 0
            else []
          | none => []
        let elsePart :=
          match lookupStr es "else" with
          | some ev =>
            if jsTruthy ev then
              ⟨condId ++ "_else", "else", depth + 1, none, none⟩ ::
                extractCondFuel fuel (toBranch ev) (condId ++ "_else") (depth + 2) 0
            else []
          | none => []
        ⟨condId, "condition", depth, none, none⟩ :: (thenPart ++ elsePart) ++
          extractCondFuel fuel rest parentId depth (condIndex + 1)
      else extractCondFuel fuel rest parentId depth condIndex
    | _ => extractCondFuel fuel rest parentId depth condIndex

mutual
/-- Size of a component, the fuel bound for `flattenCompsFuel`. -/
def cSize : BmfComponent → Nat
  | .mk _ _ _ _ none => 1
  | .mk _ _ _ _ (some l) => 1 + cListSize l

/-- Size of a component list. -/
def cListSize : List BmfComponent → Nat
  | [] => 0
  | c :: rest => 1 + cSize c + cListSize rest
end

/-- The anchor reference the flattener resolves for one component:
`comp.action || (typeof comp.value === 'string' ? comp.value : undefined)`
fed through a truthiness check and `extractReference`. -/
def componentRef (cvalue caction : Option Yaml) : Option ExtractedRef :=
  let valueToCheck : Option String :=
    if jsTruthyOpt caction then some (jsToString (caction.getD .null))
    else
      match cvalue with
      | some (.str s) => some s
      | _ => none
  match valueToCheck with
  | some s => if s = "" then none else extractReference s
  | none => none

/-- graphBuilder.ts `flattenComponents` body, recursion bounded by fuel
(every recursive call strictly shrinks `cListSize`, so `cListSize` of
the initial list is enough fuel; the `0` branch is unreachable from
`flattenComponents`).  Each component contributes its own flat entry
(reference from `componentRef`), then — for a `trigger` with an array
value — its flattened if/then conditions one level deeper, then its
children one level deeper. -/
def flattenCompsFuel : Nat → List BmfComponent → Nat → List FlatComponent
  | 0, _, _ => []
  | _ + 1, [], _ => []
  | fuel + 1, .mk cid ctype cvalue caction ccomps :: rest, depth =>
    let ref := componentRef cvalue caction
    let triggerPart : List FlatComponent :=
      if ctype = "trigger" then
        match cvalue with
        | some (.arr l) => extractCondFuel (lSize l) l cid (depth + 1) 0
        | _ => []
      else []
    let childPart : List FlatComponent :=
      match ccomps with
      | some l => flattenCompsFuel fuel l (depth + 1)
      | none => []
    ⟨cid, ctype, depth, ref.map (·.reference), ref.map (·.referenceType)⟩ ::
      (triggerPart ++ childPart) ++ flattenCompsFuel fuel rest depth

/-- graphBuilder.ts `flattenComponents` entry point. -/
def flattenCompsList (cs : List BmfComponent) (depth : Nat) : List FlatComponent :=
  flattenCompsFuel (cListSize cs) cs depth

/-- graphBuilder.ts `flattenEffects`: a non-array (or absent) effects
value flattens to nothing, an array is rendered by
`extractConditionComponents` at depth 0. -/
def flattenEffects (effects : Option Yaml) (entityId : String) : List FlatComponent :=
  match effects with
  | some (.arr l) => extractCondFuel (lSize l) l entityId 0 0
  | _ => []

/-- `entity.effects && entity.effects.length > 0`: JS truthiness of the
raw effects value followed by a `length > 0` comparison — a nonempty
string (or any value with a positive `length` property) passes, not
only a nonempty array. -/
def hasEffectsJs (eff : Option Yaml) : Bool :=
  match eff with
  | some v => jsTruthy v && jsGtZero (jsLengthProp v)
  | none => false

/-- The visibility gate of `buildGraph`'s first pass: not a `component`
type, and (≥1 parsed component, or a truthy positive-length effects
value, or referenced). -/
def visCond (p : ParsedBmf) (id : String) (e : BmfEntity) : Bool :=
  e.type != "component" &&
    (!e.components.isEmpty || hasEffectsJs e.effects || p.referencedIds.contains id)

/-- First pass of `buildGraph`: collect the set of visible entity ids in
iteration order. -/
def visibleGo (p : ParsedBmf) : List (String × BmfEntity) → List String → List String
  | [], acc => acc
  | (id, e) :: rest, acc =>
    visibleGo p rest (if visCond p id e then addUnique acc id else acc)

/-- The visible-entity id set of a parse. -/
def visibleOf (p : ParsedBmf) : List String := visibleGo p p.entities []

/-- A node's flat component list: flattened components then flattened
effects, concatenated in document order. -/
def flatComponentsOf (e : BmfEntity) (id : String) : List FlatComponent :=
  flattenCompsList e.components 0 ++ flattenEffects e.effects id

/-- A graph node (`BmfGraphNode`); the display-only `description` field
is omitted. -/
structure BmfGraphNode where
  id : String
  type : String
  epic : String
  name : String
  tags : List String
  components : List FlatComponent
  hasComponents : Bool
  isReferenced : Bool
deriving Repr, DecidableEq

/-- The node built for a visible entity.  Its `hasComponents` flag is
`(entity.components?.length ?? 0) > 0 || (entity.effects?.length ?? 0) > 0`. -/
def mkGraphNode (p : ParsedBmf) (id : String) (e : BmfEntity) : BmfGraphNode :=
  ⟨id, e.type, e.epic, e.name, e.tags, flatComponentsOf e id,
    (!e.components.isEmpty) ||
      (match e.effects with
       | some y => jsGtZero (jsLengthProp y)
       | none => false),
    p.referencedIds.contains id⟩

/-- Second pass of `buildGraph`: push a node for every visible entity,
in entity iteration order. -/
def nodesGo (p : ParsedBmf) (vis : List String) :
    List (String × BmfEntity) → List BmfGraphNode → List BmfGraphNode
  | [], acc => acc
  | (id, e) :: rest, acc =>
    nodesGo p vis rest (if vis.contains id then acc ++ [mkGraphNode p id e] else acc)

/-- Per-entity outgoing-edge map (`Map<targetId, componentId>`): for each
flat component with a truthy reference to a visible target, record the
component id unless that target already has one (first component wins). -/
def outgoingGo (vis : List String) : List FlatComponent → List (String × String) →
    List (String × String)
  | [], acc => acc
  | comp :: rest, acc =>
    outgoingGo vis rest
      (match comp.reference with
       | some r =>
         if r ≠ "" then
           if vis.contains r then
             if (lookupStr acc r).isSome then acc else acc ++ [(r, comp.id)]
           else acc
         else acc
       | none => acc)

/-- Second pass of `buildGraph`, edge-collection half: one outgoing map
per visible entity, in entity iteration order. -/
def outgoingEdgesGo (p : ParsedBmf) (vis : List String) :
    List (String × BmfEntity) → List (String × List (String × String)) →
    List (String × List (String × String))
  | [], acc => acc
  | (id, e) :: rest, acc =>
    outgoingEdgesGo p vis rest
      (if vis.contains id then acc ++ [(id, outgoingGo vis (flatComponentsOf e id) [])]
       else acc)

/-- A graph edge (`BmfGraphEdge`). -/
structure BmfGraphEdge where
  id : String
  source : String
  target : String
  sourceElement : Option String
  targetType : String
deriving Repr, DecidableEq

/-- `targetEntity?.type || 'unknown'` for component-derived edges. -/
def targetTypeOf (p : ParsedBmf) (targetId : String) : String :=
  match lookupStr p.entities targetId with
  | some e => jsOrStr e.type "unknown"
  | none => "unknown"

/-- Third pass of `buildGraph`, inner loop: emit one anchored edge per
recorded (target, component) pair unless the `source->target` key was
already emitted. -/
def edgesFromTargets (p : ParsedBmf) (sourceId : String) :
    List (String × String) → List String × List BmfGraphEdge →
    List String × List BmfGraphEdge
  | [], st => st
  | (targetId, componentId) :: rest, st =>
    let key := sourceId ++ "->" ++ targetId
    if st.1.contains key then edgesFromTargets p sourceId rest st
    else
      edgesFromTargets p sourceId rest
        (st.1 ++ [key],
         st.2 ++ [⟨key, sourceId, targetId, some componentId, targetTypeOf p targetId⟩])

/-- Third pass of `buildGraph`, outer loop over the per-entity outgoing
maps. -/
def edgesFromOutgoing (p : ParsedBmf) :
    List (String × List (String × String)) → List String × List BmfGraphEdge →
    List String × List BmfGraphEdge
  | [], st => st
  | (sourceId, targets) :: rest, st =>
    edgesFromOutgoing p rest (edgesFromTargets p sourceId targets st)

/-- Fourth pass of `buildGraph`: raw references whose source and target
are both visible yield an unanchored edge unless the key was already
emitted; the recorded target type is used when the target entity cannot
be resolved or has a falsy type. -/
def edgesFromRefs (p : ParsedBmf) (vis : List String) :
    List BmfReference → List String × List BmfGraphEdge →
    List String × List BmfGraphEdge
  | [], st => st
  | ref :: rest, st =>
    if !vis.contains ref.source then edgesFromRefs p vis rest st
    else if !vis.contains ref.target then edgesFromRefs p vis rest st
    else
      let key := ref.source ++ "->" ++ ref.target
      if st.1.contains key then edgesFromRefs p vis rest st
      else
        edgesFromRefs p vis rest
          (st.1 ++ [key],
           st.2 ++ [⟨key, ref.source, ref.target, none,
             (match lookupStr p.entities ref.target with
              | some e => jsOrStr e.type ref.targetType
              | none => ref.targetType)⟩])

/-- A built graph. -/
structure BmfGraph where
  nodes : List BmfGraphNode
  edges : List BmfGraphEdge
deriving Repr, DecidableEq

/-- graphBuilder.ts `buildGraph`: visibility pass, node pass with
per-entity outgoing maps, component-derived edges, then raw-reference
edges, sharing one `source->target` dedup set. -/
def buildGraph (p : ParsedBmf) : BmfGraph :=
  let vis := visibleOf p
  let nodes := nodesGo p vis p.entities []
  let og := outgoingEdgesGo p vis p.entities []
  let st1 := edgesFromOutgoing p og ([], [])
  let st2 := edgesFromRefs p vis p.references st1
  ⟨nodes, st2.2⟩

/-! ### NavigationGraph.tsx — epic analysis, communities, positions -/

/-- Per-epic connectivity statistics (`EpicStats`). -/
structure EpicStats where
  epic : String
  nodeCount : Nat
  internalEdges : Nat
  externalEdges : Nat
  centrality : Nat
  connectedEpics : List (String × Nat)
deriving Repr, DecidableEq

/-- `nodeToEpic`: node id → its epic, `(node.data.epic || 'Other')`.
Nodes are given as (id, epic) pairs, the epic possibly empty. -/
def nodeToEpicGo : List (String × String) → List (String × String) → List (String × String)
  | [], acc => acc
  | (id, epicRaw) :: rest, acc => nodeToEpicGo rest (jsMapSet acc id (jsOrStr epicRaw "Other"))

/-- `epicNodes`: epic → set of its node ids, in insertion order. -/
def epicNodesGo : List (String × String) → List (String × List String) →
    List (String × List String)
  | [], acc => acc
  | (id, epicRaw) :: rest, acc =>
    let epic := jsOrStr epicRaw "Other"
    epicNodesGo rest (jsMapSet acc epic (addUnique ((lookupStr acc epic).getD []) id))

/-- Zeroed statistics for each epic. -/
def initStats (epicNodes : List (String × List String)) : List (String × EpicStats) :=
  epicNodes.map (fun kv => (kv.1, ⟨kv.1, kv.2.length, 0, 0, 0, []⟩))

/-- In-place update of one epic's statistics (`epicStats.get(k)!`
mutation; absent keys cannot occur for epics derived from the node
pass). -/
def updateStats (m : List (String × EpicStats)) (k : String) (f : EpicStats → EpicStats) :
    List (String × EpicStats) :=
  m.map (fun kv => if kv.1 = k then (kv.1, f kv.2) else kv)

/-- `(connectedEpics.get(k) || 0) + 1` stored back. -/
def bumpConnected (l : List (String × Nat)) (k : String) : List (String × Nat) :=
  jsMapSet l k ((lookupStr l k).getD 0 + 1)

/-- The single edge pass of `analyzeEpicConnections`: same-epic
endpoints bump that epic's internal counter; cross-epic endpoints bump
both epics' external counters and their symmetric pairwise weights;
edges with an endpoint outside the node set (or a falsy epic) are
skipped. -/
def epicEdgeGo (nodeToEpic : List (String × String)) : List (String × String) →
    List (String × EpicStats) → List (String × EpicStats)
  | [], stats => stats
  | (src, tgt) :: rest, stats =>
    match lookupStr nodeToEpic src, lookupStr nodeToEpic tgt with
    | some sourceEpic, some targetEpic =>
      if sourceEpic = "" || targetEpic = "" then epicEdgeGo nodeToEpic rest stats
      else if sourceEpic = targetEpic then
        epicEdgeGo nodeToEpic rest
          (updateStats stats sourceEpic (fun s => { s with internalEdges := s.internalEdges + 1 }))
      else
        epicEdgeGo nodeToEpic rest
          (updateStats
            (updateStats stats sourceEpic (fun s =>
              { s with externalEdges := s.externalEdges + 1,
                       connectedEpics := bumpConnected s.connectedEpics targetEpic }))
            targetEpic (fun s =>
              { s with externalEdges := s.externalEdges + 1,
                       connectedEpics := bumpConnected s.connectedEpics sourceEpic }))
    | _, _ => epicEdgeGo nodeToEpic rest stats

/-- The final pass of `analyzeEpicConnections`:
`stats.centrality = stats.externalEdges * 2 + stats.internalEdges`. -/
def setCentrality (s : EpicStats) : EpicStats :=
  { s with centrality := s.externalEdges * 2 + s.internalEdges }

/-- NavigationGraph.tsx `analyzeEpicConnections`: group nodes by epic
(`Other` when empty), run the edge pass, then set every epic's
centrality to `externalEdges * 2 + internalEdges`.  Returns the
statistics map and the node→epic map. -/
def analyzeEpicConnections (nodes : List (String × String)) (edges : List (String × String)) :
    List (String × EpicStats) × List (String × String) :=
  let nodeToEpic := nodeToEpicGo nodes []
  let stats1 := epicEdgeGo nodeToEpic edges (initStats (epicNodesGo nodes []))
  (stats1.map (fun kv => (kv.1, setCentrality kv.2)), nodeToEpic)

/-- Centrality of an epic in a statistics map (`epicStats.get(e)!`). -/
def centralityOf (epicStats : List (String × EpicStats)) (e : String) : Nat :=
  ((lookupStr epicStats e).map (fun s => s.centrality)).getD 0

/-- The neighbor-absorption loop of `detectEpicCommunities`: an already
assigned neighbor is skipped outright; otherwise it is absorbed when its
weight is ≥ 3 (strong tie) or fewer than two weaker neighbors were
absorbed so far; after each non-skipped iteration the loop stops once
the community holds 4 epics. -/
def absorbLoop : List (String × Nat) → List String → List String → Nat →
    List String × List String
  | [], community, assigned, _ => (community, assigned)
  | (connectedEpic, count) :: rest, community, assigned, addedCount =>
    if assigned.contains connectedEpic then absorbLoop rest community assigned addedCount
    else
      if count ≥ 3 || addedCount < 2 then
        if (community ++ [connectedEpic]).length ≥ 4 then
          (community ++ [connectedEpic], assigned ++ [connectedEpic])
        else
          absorbLoop rest (community ++ [connectedEpic]) (assigned ++ [connectedEpic])
            (addedCount + 1)
      else
        if community.length ≥ 4 then (community, assigned)
        else absorbLoop rest community assigned addedCount

/-- The neighbor list a freshly seeded epic absorbs from: its
`connectedEpics` entries whose key is still unassigned (the seed itself
already counts as assigned), sorted by descending weight
(`.sort((a, b) => b[1] - a[1])`, stable). -/
def connectionsOf (epicStats : List (String × EpicStats)) (assigned1 : List String)
    (epic : String) : List (String × Nat) :=
  stableSortBy (fun a b => b.2 ≤ a.2)
    ((((lookupStr epicStats epic).getD ⟨epic, 0, 0, 0, 0, []⟩).connectedEpics).filter
      (fun pr => !assigned1.contains pr.1))

/-- The seeding loop of `detectEpicCommunities` over the
centrality-sorted epics: each unassigned epic seeds a new community and
absorbs from its unassigned neighbors sorted by descending weight. -/
def detectGo (epicStats : List (String × EpicStats)) : List String →
    List (String × List String) → List String → Nat → List (String × List String)
  | [], comms, _, _ => comms
  | epic :: rest, comms, assigned, communityIndex =>
    if assigned.contains epic then detectGo epicStats rest comms assigned communityIndex
    else
      detectGo epicStats rest
        (comms ++ [("community-" ++ toString communityIndex,
          (absorbLoop (connectionsOf epicStats (assigned ++ [epic]) epic) [epic]
            (assigned ++ [epic]) 0).1)])
        (absorbLoop (connectionsOf epicStats (assigned ++ [epic]) epic) [epic]
          (assigned ++ [epic]) 0).2
        (communityIndex + 1)

/-- NavigationGraph.tsx `detectEpicCommunities`: at most 3 epics yield
the single trivial community `main`; otherwise greedy seeding in
descending-centrality order. -/
def detectEpicCommunities (epicStats : List (String × EpicStats)) :
    List (String × List String) :=
  let epics := epicStats.map (fun kv => kv.1)
  if epics.length ≤ 3 then [("main", epics)]
  else
    detectGo epicStats
      (stableSortBy (fun a b => centralityOf epicStats b ≤ centralityOf epicStats a) epics)
      [] [] 0

/-- A node of the layout engine's result tree (`ElkNode`): id, optional
relative coordinates, children (`undefined` modelled as `[]`). -/
inductive ElkNode where
  | mk (id : String) (x y : Option Int) (children : List ElkNode)
deriving Repr

/-- Elk node id. -/
def ElkNode.id : ElkNode → String
  | .mk i _ _ _ => i

/-- Elk node relative x. -/
def ElkNode.x : ElkNode → Option Int
  | .mk _ x _ _ => x

/-- Elk node relative y. -/
def ElkNode.y : ElkNode → Option Int
  | .mk _ _ y _ => y

/-- Elk node children. -/
def ElkNode.children : ElkNode → List ElkNode
  | .mk _ _ _ c => c

mutual
/-- Size of an Elk node, the fuel bound for `extractChildrenFuel`. -/
def nSize : ElkNode → Nat
  | .mk _ _ _ c => 1 + nListSize c

/-- Size of an Elk node list. -/
def nListSize : List ElkNode → Nat
  | [] => 0
  | n :: rest => 1 + nSize n + nListSize rest
end

/-- The child loop of `extractPositions`, at accumulated offset (x, y)
(the container's absolute position): a child with children recurses with
the child's own coordinates added (`extractPositions(child, x, y)`
inlined), a leaf is recorded at the offset plus its own coordinates,
missing coordinates defaulting to 0 (`?? 0`).  Recursion is bounded by
fuel; every recursive call strictly shrinks `nListSize`, so `nListSize`
of the initial list is enough fuel and the `0` branch is unreachable
from `extractPositions`. -/
def extractChildrenFuel : Nat → List ElkNode → Int → Int → List (String × Int × Int) →
    List (String × Int × Int)
  | 0, _, _, _, acc => acc
  | _ + 1, [], _, _, acc => acc
  | fuel + 1, .mk cid chx chy cchildren :: rest, x, y, acc =>
    let acc1 :=
      if cchildren.length > 0 then
        extractChildrenFuel fuel cchildren (x + chx.getD 0) (y + chy.getD 0) acc
      else jsMapSet acc cid (x + chx.getD 0, y + chy.getD 0)
    extractChildrenFuel fuel rest x y acc1

/-- NavigationGraph.tsx `extractPositions` on one container. -/
def extractPositions (container : ElkNode) (offsetX offsetY : Int)
    (acc : List (String × Int × Int)) : List (String × Int × Int) :=
  match container with
  | .mk _ cx cy children =>
    extractChildrenFuel (nListSize children) children
      (offsetX + cx.getD 0) (offsetY + cy.getD 0) acc

/-- `layoutedGraph.children?.forEach(child => extractPositions(child))`:
every root child is walked with offset (0, 0) into one shared position
map. -/
def collectPositionsGo : List ElkNode → List (String × Int × Int) →
    List (String × Int × Int)
  | [], acc => acc
  | c :: rest, acc => collectPositionsGo rest (extractPositions c 0 0 acc)

/-- The resolved position map of a layout result. -/
def collectPositions (roots : List ElkNode) : List (String × Int × Int) :=
  collectPositionsGo roots []

/-- `nodes.map(node => ({ ...node, position: nodePositions.get(node.id)
?? { x: 0, y: 0 } }))`: every node gets its resolved absolute position,
the origin when the engine dropped it. -/
def resolveNodePositions (roots : List ElkNode) (nodeIds : List String) :
    List (String × Int × Int) :=
  let pos := collectPositions roots
  nodeIds.map (fun nid => (nid, (lookupStr pos nid).getD (0, 0)))

/-! ### Concrete inputs used by counterexamples and witnesses -/

/-- Spec scenario 1: an action whose effect references a screen. -/
def docFinish : Yaml := .map [
  ("action:t:finish", .map [("effects", .arr [.str "$screen:t:results"])]),
  ("screen:t:results", .map [("description", .str "results page")])]

/-- A file set whose second document failed to parse. -/
def filesWithBadDoc : List (String × Except String Yaml) :=
  [("a.yaml", .ok docFinish), ("b.yaml", .error "bad")]

/-- A document whose only entity carries a nonempty *string* `effects`
field (no components, not referenced, zero effect entries). -/
def docStringEffects : Yaml := .map [("action:x", .map [("effects", .str "go")])]

/-- A component whose value holds a bare component reference before a
sigil reference. -/
def compBareThenSigil : BmfComponent :=
  .mk "c1" "button" (some (.str "component:x $screen:y")) none none

/-- Nodes of spec scenario 4: epics A and B, two nodes each. -/
def nodesAB : List (String × String) := [("n1", "A"), ("n2", "A"), ("n3", "B"), ("n4", "B")]

/-- Edges of spec scenario 4: exactly two cross edges, no internal
edges. -/
def edgesAB : List (String × String) := [("n1", "n3"), ("n2", "n4")]

/-- A five-epic statistics map exercising the nontrivial community
branch. -/
def statsFive : List (String × EpicStats) := [
  ("A", ⟨"A", 1, 0, 3, 6, [("B", 3)]⟩), ("B", ⟨"B", 1, 0, 3, 6, [("A", 3)]⟩),
  ("C", ⟨"C", 1, 0, 1, 2, [("D", 1)]⟩), ("D", ⟨"D", 1, 0, 1, 2, [("C", 1)]⟩),
  ("E", ⟨"E", 1, 2, 0, 2, []⟩)]

/-- A two-level layout result tree with two leaves. -/
def elkTree : List ElkNode :=
  [.mk "c" (some 10) (some 20)
    [.mk "leaf" (some 1) (some 2) [],
     .mk "inner" (some 5) (some 5) [.mk "leaf2" (some 100) (some 200) []]]]

/-- A node's x coordinate with the `?? 0` default. -/
def xOr0 (n : ElkNode) : Int := n.x.getD 0

/-- A node's y coordinate with the `?? 0` default. -/
def yOr0 (n : ElkNode) : Int := n.y.getD 0

mutual
/-- The leaf ids the position walk records for one child, in visit
order: the child's own id when it has no children, else its subtree's
leaf ids. -/
def leafIdsN : ElkNode → List String
  | .mk cid _ _ [] => [cid]
  | .mk _ _ _ (c :: cs) => leafIdsL (c :: cs)

/-- The leaf ids the position walk records over a child list, in visit
order. -/
def leafIdsL : List ElkNode → List String
  | [] => []
  | c :: rest => leafIdsN c ++ leafIdsL rest
end

/-- The leaf ids recorded over a whole root forest (each root is walked
as a container: a childless root records nothing). -/
def leafIdsRoots : List ElkNode → List String
  | [] => []
  | .mk _ _ _ ch :: rest => leafIdsL ch ++ leafIdsRoots rest

/-- A leaf reachable from a child list: descend through the ancestor
containers `anc` (each nonempty, as the walk only recurses into children
with children) down to a childless leaf. -/
inductive LeafPathL : List ElkNode → List ElkNode → ElkNode → Prop where
  | here (leaf : ElkNode) (l : List ElkNode) :
      leaf ∈ l → leaf.children = [] → LeafPathL l [] leaf
  | deeper (n : ElkNode) (l anc : List ElkNode) (leaf : ElkNode) :
      n ∈ l → n.children ≠ [] → LeafPathL n.children anc leaf →
      LeafPathL l (n :: anc) leaf

/-! ### Supporting lemmas -/

/-- Elements of a `takeWhile` all satisfy the predicate. -/
theorem all_takeWhile {α : Type} (p : α → Bool) :
    ∀ l : List α, (l.takeWhile p).all p = true := by
  intro l
  induction l with
  | nil => rfl
  | cons c cs ih =>
    by_cases h : p c = true
    · simp [List.takeWhile_cons, h, ih]
    · simp [List.takeWhile_cons, h]

/-- `List.contains` agrees with membership for strings. -/
theorem contains_iff {l : List String} {a : String} : l.contains a = true ↔ a ∈ l := by
  simp [List.elem_iff, List.contains]

/-- Membership in a `Set.add`. -/
theorem mem_addUnique {l : List String} {s a : String} :
    a ∈ addUnique l s ↔ a ∈ l ∨ a = s := by
  unfold addUnique
  by_cases h : l.contains s = true
  · simp only [h, if_true]
    constructor
    · exact Or.inl
    · intro hm
      rcases hm with hm | hm
      · exact hm
      · subst hm; exact contains_iff.mp h
  · have h' : s ∉ l := fun hm => h (contains_iff.mpr hm)
    simp [h']

/-- The sigil matcher only succeeds with a nonempty all-letter type token
and a nonempty path of path characters. -/
theorem sigilMatchAt_sound {l : List Char} {t p : String} {rest : List Char}
    (h : sigilMatchAt l = some (t, p, rest)) :
    t ≠ "" ∧ t.toList.all isLetterCI = true ∧ p ≠ "" ∧ p.toList.all isRefPathChar = true := by
  cases l with
  | nil => exact absurd h (by simp [sigilMatchAt])
  | cons c cs =>
    simp only [sigilMatchAt] at h
    split at h
    case isTrue =>
      split at h
      case isTrue => exact absurd h (by simp)
      case isFalse hty =>
        split at h
        case h_1 sep rest2 heq =>
          split at h
          case isTrue =>
            split at h
            case isTrue => exact absurd h (by simp)
            case isFalse hpath =>
              injection h with h2
              obtain ⟨h3, h4⟩ := Prod.mk.inj h2
              obtain ⟨h5, h6⟩ := Prod.mk.inj h4
              subst h3 h5
              refine ⟨?_, all_takeWhile isLetterCI cs, ?_, all_takeWhile isRefPathChar rest2⟩
              · intro he
                have hnil : cs.takeWhile isLetterCI = [] := congrArg String.data he
                simp [hnil] at hty
              · intro he
                have hnil : rest2.takeWhile isRefPathChar = [] := congrArg String.data he
                simp [hnil] at hpath
          case isFalse => exact absurd h (by simp)
        case h_2 => exact absurd h (by simp)
    case isFalse => exact absurd h (by simp)

/-- Every match of the global sigil scan has a nonempty all-letter type
token and a nonempty path of path characters. -/
theorem findSigilsFuel_sound :
    ∀ (fuel : Nat) (l : List Char) (t p : String), (t, p) ∈ findSigilsFuel fuel l →
      t ≠ "" ∧ t.toList.all isLetterCI = true ∧ p ≠ "" ∧ p.toList.all isRefPathChar = true := by
  intro fuel
  induction fuel with
  | zero => intro l t p h; simp [findSigilsFuel] at h
  | succ fuel ih =>
    intro l t p h
    cases l with
    | nil => simp [findSigilsFuel] at h
    | cons c tl =>
      cases hm : sigilMatchAt (c :: tl) with
      | some tpr =>
        obtain ⟨t', p', rest'⟩ := tpr
        rw [findSigilsFuel, hm] at h
        rcases List.mem_cons.mp h with heq | hmem
        · obtain ⟨h1, h2⟩ := Prod.mk.inj heq
          subst h1 h2
          exact sigilMatchAt_sound hm
        · exact ih _ _ _ hmem
      | none =>
        rw [findSigilsFuel, hm] at h
        exact ih _ _ _ h

/-- `findSigils` soundness on strings. -/
theorem findSigils_sound {s t p : String} (h : (t, p) ∈ findSigils s) :
    t ≠ "" ∧ t.toList.all isLetterCI = true ∧ p ≠ "" ∧ p.toList.all isRefPathChar = true :=
  findSigilsFuel_sound _ _ _ _ h

/-- C4: reference extraction normalizes `"$screen:a:b"`, `"$screen.a.b"`
and `"$screen:a:b ( k: v )"` all to the target id `screen:a:b` — dots in
the path rewritten to colons, a trailing parenthesized parameter clause
ignored for identity — both in `extractReference` and in the parser's
global extraction. -/
theorem c4_reference_normalization :
    extractReference "$screen:a:b" = some ⟨"screen:a:b", "screen"⟩ ∧
    extractReference "$screen.a.b" = some ⟨"screen:a:b", "screen"⟩ ∧
    extractReference "$screen:a:b ( k: v )" = some ⟨"screen:a:b", "screen"⟩ ∧
    (refsOfString "$screen:a:b" "s" "").map (fun r => r.target) = ["screen:a:b"] ∧
    (refsOfString "$screen.a.b" "s" "").map (fun r => r.target) = ["screen:a:b"] ∧
    (refsOfString "$screen:a:b ( k: v )" "s" "").map (fun r => r.target) = ["screen:a:b"] := by
  decide

/-- C8 counterexample: the claim predicts that `"$Screen:a"` (uppercase
in the type token) yields no extracted reference, but the patterns carry
the `i` flag, so it extracts `Screen:a`. -/
theorem c8_counterexample :
    ¬ extractReference "$Screen:a" = none ∧
    extractReference "$Screen:a" = some ⟨"Screen:a", "Screen"⟩ := by
  decide

/-- C8 amended: sigil matching is case-insensitive — a match's type
token is a nonempty run of ASCII letters of either case and its path a
nonempty run of alphanumerics of either case, `.`, `:`, `-`, `_`; an
uppercase candidate such as `"$Screen:a"` therefore yields a reference,
with the original casing preserved. -/
theorem c8_case_insensitive_sigil :
    (∀ (s t p : String), (t, p) ∈ findSigils s →
      t ≠ "" ∧ t.toList.all isLetterCI = true ∧ p ≠ "" ∧ p.toList.all isRefPathChar = true) ∧
    extractReference "$Screen:a" = some ⟨"Screen:a", "Screen"⟩ ∧
    extractReference "$screen:a" = some ⟨"screen:a", "screen"⟩ :=
  ⟨fun _ _ _ h => findSigils_sound h, by decide, by decide⟩

/-- C8 witness: the soundness half applied to the concrete match of
`"$Screen:a"`. -/
theorem c8_witness :
    "Screen" ≠ "" ∧ "Screen".toList.all isLetterCI = true ∧
    "a" ≠ "" ∧ "a".toList.all isRefPathChar = true :=
  c8_case_insensitive_sigil.1 "$Screen:a" "Screen" "a" (by decide)

/-- C3 counterexample: with one well-formed document (two entities) and
one malformed document, `parseBmfFiles` does not yield the first
document's entities alongside a per-document error — it propagates the
parse exception and returns nothing. -/
theorem c3_counterexample :
    parseBmfFiles filesWithBadDoc = Except.error "bad" ∧
    (parseBmfValue docFinish).entities.map Prod.fst =
      ["action:t:finish", "screen:t:results"] ∧
    ¬ ∃ q : ParsedBmf, parseBmfFiles filesWithBadDoc = Except.ok q ∧
        "action:t:finish" ∈ q.entities.map Prod.fst := by
  refine ⟨rfl, by decide, ?_⟩
  rintro ⟨q, hq, -⟩
  rw [show parseBmfFiles filesWithBadDoc = Except.error "bad" from rfl] at hq
  exact absurd hq (by simp)

/-- The per-file fold propagates the first parse exception: with every
earlier document well-formed, the failing document's error is returned
whatever state has been accumulated. -/
theorem parseBmfFilesGo_error :
    ∀ (pre rest : List (String × Except String Yaml)) (n msg : String)
      (ents : List (String × BmfEntity)) (refs : List BmfReference) (eps tgs : List String),
      (∀ f ∈ pre, ∃ v, f.2 = Except.ok v) →
      parseBmfFilesGo (pre ++ (n, Except.error msg) :: rest) ents refs eps tgs =
        Except.error msg := by
  intro pre
  induction pre with
  | nil =>
    intro rest n msg ents refs eps tgs hok
    simp [parseBmfFilesGo, parseBmfYaml]
  | cons f pre ih =>
    intro rest n msg ents refs eps tgs hok
    obtain ⟨v, hv⟩ := hok f (List.mem_cons_self f pre)
    obtain ⟨name, doc⟩ := f
    simp only at hv
    subst hv
    simp only [List.cons_append, parseBmfFilesGo, parseBmfYaml]
    exact ih rest n msg _ _ _ _ (fun g hg => hok g (List.mem_cons_of_mem _ hg))

/-- C3 amended: a document that fails to parse aborts the whole
multi-file parse — `parseBmfFiles` propagates the first failing
document's exception (there is no per-document error isolation), and no
entities from any document are returned. -/
theorem c3_error_aborts_whole_parse
    (pre rest : List (String × Except String Yaml)) (n msg : String)
    (hok : ∀ f ∈ pre, ∃ v, f.2 = Except.ok v) :
    parseBmfFiles (pre ++ (n, Except.error msg) :: rest) = Except.error msg :=
  parseBmfFilesGo_error pre rest n msg [] [] [] [] hok

/-- C3 witness: the amended theorem at the concrete two-file input. -/
theorem c3_witness :
    parseBmfFiles ([("a.yaml", Except.ok docFinish)] ++ ("b.yaml", Except.error "bad") :: []) =
      Except.error "bad" :=
  c3_error_aborts_whole_parse [("a.yaml", Except.ok docFinish)] [] "b.yaml" "bad"
    (by
      intro f hf
      rcases List.mem_singleton.mp hf with rfl
      exact ⟨docFinish, rfl⟩)

/-- A successful lookup is a member. -/
theorem lookupStr_mem {α : Type} :
    ∀ {l : List (String × α)} {k : String} {v : α}, lookupStr l k = some v → (k, v) ∈ l := by
  intro l
  induction l with
  | nil => intro k v h; simp [lookupStr] at h
  | cons kv rest ih =>
    intro k v h
    obtain ⟨k', v'⟩ := kv
    by_cases hk : k' = k
    · subst hk
      simp [lookupStr] at h
      subst h
      exact List.mem_cons_self _ _
    · simp [lookupStr, hk] at h
      exact List.mem_cons_of_mem _ (ih h)

/-- With distinct keys, a member is found by lookup. -/
theorem lookupStr_eq_of_mem_nodup {α : Type} :
    ∀ {l : List (String × α)}, (l.map Prod.fst).Nodup →
      ∀ {k : String} {v : α}, (k, v) ∈ l → lookupStr l k = some v := by
  intro l
  induction l with
  | nil => intro _ k v h; simp at h
  | cons kv rest ih =>
    intro hnd k v h
    obtain ⟨k', v'⟩ := kv
    simp only [List.map_cons, List.nodup_cons] at hnd
    rcases List.mem_cons.mp h with heq | hmem
    · obtain ⟨h1, h2⟩ := Prod.mk.inj heq
      subst h1 h2
      simp [lookupStr]
    · by_cases hk : k' = k
      · subst hk
        exact absurd (List.mem_map_of_mem Prod.fst hmem) hnd.1
      · simp only [lookupStr, hk, if_false]
        exact ih hnd.2 hmem

/-- Membership in the visibility pass. -/
theorem mem_visibleGo {p : ParsedBmf} :
    ∀ (l : List (String × BmfEntity)) (acc : List String) (id : String),
      id ∈ visibleGo p l acc ↔ id ∈ acc ∨ ∃ e, (id, e) ∈ l ∧ visCond p id e = true := by
  intro l
  induction l with
  | nil => intro acc id; simp [visibleGo]
  | cons kv rest ih =>
    intro acc id
    obtain ⟨k, e0⟩ := kv
    by_cases hv : visCond p k e0 = true
    · simp only [visibleGo, hv, if_true]
      rw [ih]
      simp only [mem_addUnique, List.mem_cons, Prod.mk.injEq]
      constructor
      · rintro ((ha | rfl) | ⟨e, he, hc⟩)
        · exact Or.inl ha
        · exact Or.inr ⟨e0, Or.inl ⟨rfl, rfl⟩, hv⟩
        · exact Or.inr ⟨e, Or.inr he, hc⟩
      · rintro (ha | ⟨e, ⟨rfl, rfl⟩ | he, hc⟩)
        · exact Or.inl (Or.inl ha)
        · exact Or.inl (Or.inr rfl)
        · exact Or.inr ⟨e, he, hc⟩
    · simp only [visibleGo, hv, if_false]
      rw [ih]
      simp only [List.mem_cons, Prod.mk.injEq]
      constructor
      · rintro (ha | ⟨e, he, hc⟩)
        · exact Or.inl ha
        · exact Or.inr ⟨e, Or.inr he, hc⟩
      · rintro (ha | ⟨e, ⟨rfl, rfl⟩ | he, hc⟩)
        · exact Or.inl ha
        · exact absurd hc hv
        · exact Or.inr ⟨e, he, hc⟩

/-- Membership in the visible-entity set. -/
theorem mem_visibleOf {p : ParsedBmf} {id : String} :
    id ∈ visibleOf p ↔ ∃ e, (id, e) ∈ p.entities ∧ visCond p id e = true := by
  unfold visibleOf
  rw [mem_visibleGo]
  simp

/-- Membership in the node pass. -/
theorem mem_nodesGo {p : ParsedBmf} {vis : List String} :
    ∀ (l : List (String × BmfEntity)) (acc : List BmfGraphNode) (n : BmfGraphNode),
      n ∈ nodesGo p vis l acc ↔
        n ∈ acc ∨ ∃ id e, (id, e) ∈ l ∧ vis.contains id = true ∧ n = mkGraphNode p id e := by
  intro l
  induction l with
  | nil => intro acc n; simp [nodesGo]
  | cons kv rest ih =>
    intro acc n
    obtain ⟨k, e0⟩ := kv
    by_cases hv : vis.contains k = true
    · simp only [nodesGo, hv, if_true]
      rw [ih]
      simp only [List.mem_append, List.mem_cons, List.not_mem_nil, or_false,
        Prod.mk.injEq]
      constructor
      · rintro ((ha | rfl) | ⟨id, e, he, hc, rfl⟩)
        · exact Or.inl ha
        · exact Or.inr ⟨k, e0, Or.inl ⟨rfl, rfl⟩, hv, rfl⟩
        · exact Or.inr ⟨id, e, Or.inr he, hc, rfl⟩
      · rintro (ha | ⟨id, e, ⟨rfl, rfl⟩ | he, hc, rfl⟩)
        · exact Or.inl (Or.inl ha)
        · exact Or.inl (Or.inr rfl)
        · exact Or.inr ⟨id, e, he, hc, rfl⟩
    · simp only [nodesGo, hv, if_false]
      rw [ih]
      simp only [List.mem_cons, Prod.mk.injEq]
      constructor
      · rintro (ha | ⟨id, e, he, hc, rfl⟩)
        · exact Or.inl ha
        · exact Or.inr ⟨id, e, Or.inr he, hc, rfl⟩
      · rintro (ha | ⟨id, e, ⟨rfl, rfl⟩ | he, hc, rfl⟩)
        · exact Or.inl ha
        · exact absurd hc hv
        · exact Or.inr ⟨id, e, he, hc, rfl⟩

/-- The id of a built node is the entity id it was built from. -/
theorem mkGraphNode_id (p : ParsedBmf) (id : String) (e : BmfEntity) :
    (mkGraphNode p id e).id = id := rfl

/-- The node ids of a built graph are exactly the visible entity ids. -/
theorem mem_nodeIds {p : ParsedBmf} {id : String} :
    id ∈ (buildGraph p).nodes.map (fun n => n.id) ↔
      ∃ e, (id, e) ∈ p.entities ∧ (visibleOf p).contains id = true := by
  show id ∈ (nodesGo p (visibleOf p) p.entities []).map (fun n => n.id) ↔ _
  rw [List.mem_map]
  constructor
  · rintro ⟨n, hn, rfl⟩
    rcases (mem_nodesGo p.entities [] n).mp hn with h | ⟨id', e, he, hc, rfl⟩
    · simp at h
    · exact ⟨e, he, hc⟩
  · rintro ⟨e, he, hc⟩
    exact ⟨mkGraphNode p id e, (mem_nodesGo p.entities [] _).mpr
      (Or.inr ⟨id, e, he, hc, rfl⟩), rfl⟩

/-- Unfolding of the visibility gate to propositions. -/
theorem visCond_iff {p : ParsedBmf} {id : String} {e : BmfEntity} :
    visCond p id e = true ↔
      e.type ≠ "component" ∧
        (e.components ≠ [] ∨ hasEffectsJs e.effects = true ∨ id ∈ p.referencedIds) := by
  simp [visCond, contains_iff, List.isEmpty_iff, bne_iff_ne, or_assoc]

/-- C2 counterexample: in the document whose entity `action:x` has
`effects: "go"` (a nonempty string — zero effect entries, no components,
not referenced), the claimed visibility rule says `action:x` is not a
node, but `buildGraph` materializes it: the code tests JS truthiness and
`length > 0` on the raw effects value, which a nonempty string passes. -/
theorem c2_counterexample :
    ¬ ∀ id : String,
        id ∈ (buildGraph (parseBmfValue docStringEffects)).nodes.map (fun n => n.id) ↔
          ∃ e, lookupStr (parseBmfValue docStringEffects).entities id = some e ∧
            e.type ≠ "component" ∧
            (e.components ≠ [] ∨ (∃ l, e.effects = some (.arr l) ∧ l ≠ []) ∨
              id ∈ (parseBmfValue docStringEffects).referencedIds) := by
  intro hclaim
  obtain ⟨e, he, -, hcond⟩ := (hclaim "action:x").mp (by decide)
  have heq : e = ⟨"action:x", "action", "", "x", [], [], some (.str "go"),
      .map [("effects", .str "go")]⟩ := by
    have h2 : lookupStr (parseBmfValue docStringEffects).entities "action:x" =
        some ⟨"action:x", "action", "", "x", [], [], some (.str "go"),
          .map [("effects", .str "go")]⟩ := rfl
    exact Option.some.inj (he.symm.trans h2)
  subst heq
  rcases hcond with h | ⟨l, hl, -⟩ | h
  · exact h rfl
  · simp at hl
  · simp [show (parseBmfValue docStringEffects).referencedIds = [] from rfl] at h

/-- C2 amended: for every parse result (entity keys are unique), an
entity id is a node of the built graph iff the entity's type is not
`component` and it has at least one parsed component, or an effects
value that is truthy with a positive JS `length` (at least one effect
entry — or, through the unvalidated cast, any nonempty string), or its
id is referenced; in particular no `component`-type entity is ever a
node. -/
theorem c2_visibility_amended (p : ParsedBmf)
    (hnd : (p.entities.map Prod.fst).Nodup) (id : String) :
    (id ∈ (buildGraph p).nodes.map (fun n => n.id) ↔
      ∃ e, lookupStr p.entities id = some e ∧ e.type ≠ "component" ∧
        (e.components ≠ [] ∨ hasEffectsJs e.effects = true ∨ id ∈ p.referencedIds)) ∧
    (∀ e, lookupStr p.entities id = some e → e.type = "component" →
      id ∉ (buildGraph p).nodes.map (fun n => n.id)) := by
  have hiff : id ∈ (buildGraph p).nodes.map (fun n => n.id) ↔
      ∃ e, lookupStr p.entities id = some e ∧ e.type ≠ "component" ∧
        (e.components ≠ [] ∨ hasEffectsJs e.effects = true ∨ id ∈ p.referencedIds) := by
    rw [mem_nodeIds]
    constructor
    · rintro ⟨e, he, hc⟩
      obtain ⟨e', he', hv'⟩ := mem_visibleOf.mp (contains_iff.mp hc)
      exact ⟨e', lookupStr_eq_of_mem_nodup hnd he', visCond_iff.mp hv'⟩
    · rintro ⟨e, hl, hcond⟩
      have he : (id, e) ∈ p.entities := lookupStr_mem hl
      exact ⟨e, he, contains_iff.mpr (mem_visibleOf.mpr ⟨e, he, visCond_iff.mpr hcond⟩)⟩
  refine ⟨hiff, ?_⟩
  intro e hl hty hmem
  obtain ⟨e', hl', hty', -⟩ := hiff.mp hmem
  rw [hl] at hl'
  exact hty' (Option.some.inj hl' ▸ hty)

/-- C2 witness: the amended theorem at the parsed scenario-1 document
and the referenced screen id. -/
theorem c2_witness :
    ("screen:t:results" ∈ (buildGraph (parseBmfValue docFinish)).nodes.map (fun n => n.id) ↔
      ∃ e, lookupStr (parseBmfValue docFinish).entities "screen:t:results" = some e ∧
        e.type ≠ "component" ∧
        (e.components ≠ [] ∨ hasEffectsJs e.effects = true ∨
          "screen:t:results" ∈ (parseBmfValue docFinish).referencedIds)) ∧
    (∀ e, lookupStr (parseBmfValue docFinish).entities "screen:t:results" = some e →
      e.type = "component" →
      "screen:t:results" ∉ (buildGraph (parseBmfValue docFinish)).nodes.map (fun n => n.id)) :=
  c2_visibility_amended (parseBmfValue docFinish) (by decide) "screen:t:results"

/-- Every target recorded by the per-entity outgoing map is visible. -/
theorem outgoingGo_targets {vis : List String} :
    ∀ (flat : List FlatComponent) (acc : List (String × String)),
      (∀ tc ∈ acc, vis.contains tc.1 = true) →
      ∀ tc ∈ outgoingGo vis flat acc, vis.contains tc.1 = true := by
  intro flat
  induction flat with
  | nil => intro acc hacc tc htc; exact hacc tc htc
  | cons comp rest ih =>
    intro acc hacc tc htc
    cases href : comp.reference with
    | none =>
      simp only [outgoingGo, href] at htc
      exact ih acc hacc tc htc
    | some r =>
      simp only [outgoingGo, href] at htc
      refine ih _ ?_ tc htc
      intro tc' htc'
      split_ifs at htc' with h1 h2 h3
      · exact hacc tc' htc'
      · rcases List.mem_append.mp htc' with hm | hm
        · exact hacc tc' hm
        · rcases List.mem_singleton.mp hm with rfl
          exact h2
      · exact hacc tc' htc'
      · exact hacc tc' htc'

/-- Every per-entity outgoing map collected in the second pass has a
visible source and only visible targets. -/
theorem outgoingEdgesGo_prop {p : ParsedBmf} {vis : List String} :
    ∀ (l : List (String × BmfEntity)) (acc : List (String × List (String × String))),
      (∀ st ∈ acc, vis.contains st.1 = true ∧ ∀ tc ∈ st.2, vis.contains tc.1 = true) →
      ∀ st ∈ outgoingEdgesGo p vis l acc,
        vis.contains st.1 = true ∧ ∀ tc ∈ st.2, vis.contains tc.1 = true := by
  intro l
  induction l with
  | nil => intro acc hacc st hst; exact hacc st hst
  | cons kv rest ih =>
    intro acc hacc st hst
    obtain ⟨id, e⟩ := kv
    by_cases hid : vis.contains id = true
    · simp only [outgoingEdgesGo, hid, if_true] at hst
      refine ih _ ?_ st hst
      intro st' hst'
      rcases List.mem_append.mp hst' with hm | hm
      · exact hacc st' hm
      · rcases List.mem_singleton.mp hm with rfl
        exact ⟨hid, outgoingGo_targets _ [] (by simp) ⟩
    · simp only [outgoingEdgesGo, hid, if_false] at hst
      exact ih acc hacc st hst

/-- The inner third-pass loop only adds edges between the given visible
source and its visible targets. -/
theorem edgesFromTargets_prop {p : ParsedBmf} {vis : List String} {sourceId : String} :
    ∀ (targets : List (String × String)) (st : List String × List BmfGraphEdge),
      vis.contains sourceId = true →
      (∀ tc ∈ targets, vis.contains tc.1 = true) →
      (∀ e ∈ st.2, vis.contains e.source = true ∧ vis.contains e.target = true) →
      ∀ e ∈ (edgesFromTargets p sourceId targets st).2,
        vis.contains e.source = true ∧ vis.contains e.target = true := by
  intro targets
  induction targets with
  | nil => intro st _ _ hst e he; exact hst e he
  | cons tc rest ih =>
    intro st hsrc htg hst e he
    obtain ⟨targetId, componentId⟩ := tc
    by_cases hk : st.1.contains (sourceId ++ "->" ++ targetId) = true
    · simp only [edgesFromTargets, hk, if_true] at he
      exact ih st hsrc (fun tc' htc' => htg tc' (List.mem_cons_of_mem _ htc')) hst e he
    · simp only [edgesFromTargets, hk, if_false] at he
      refine ih _ hsrc (fun tc' htc' => htg tc' (List.mem_cons_of_mem _ htc')) ?_ e he
      intro e' he'
      rcases List.mem_append.mp he' with hm | hm
      · exact hst e' hm
      · rcases List.mem_singleton.mp hm with rfl
        exact ⟨hsrc, htg (targetId, componentId) (List.mem_cons_self _ _)⟩

/-- The third pass only adds edges with visible endpoints. -/
theorem edgesFromOutgoing_prop {p : ParsedBmf} {vis : List String} :
    ∀ (og : List (String × List (String × String))) (st : List String × List BmfGraphEdge),
      (∀ s ∈ og, vis.contains s.1 = true ∧ ∀ tc ∈ s.2, vis.contains tc.1 = true) →
      (∀ e ∈ st.2, vis.contains e.source = true ∧ vis.contains e.target = true) →
      ∀ e ∈ (edgesFromOutgoing p og st).2,
        vis.contains e.source = true ∧ vis.contains e.target = true := by
  intro og
  induction og with
  | nil => intro st _ hst e he; exact hst e he
  | cons s rest ih =>
    intro st hog hst e he
    obtain ⟨sourceId, targets⟩ := s
    simp only [edgesFromOutgoing] at he
    have hs := hog (sourceId, targets) (List.mem_cons_self _ _)
    exact ih _ (fun s' hs' => hog s' (List.mem_cons_of_mem _ hs'))
      (edgesFromTargets_prop targets st hs.1 hs.2 hst) e he

/-- The fourth pass only adds edges with visible endpoints. -/
theorem edgesFromRefs_prop {p : ParsedBmf} {vis : List String} :
    ∀ (refs : List BmfReference) (st : List String × List BmfGraphEdge),
      (∀ e ∈ st.2, vis.contains e.source = true ∧ vis.contains e.target = true) →
      ∀ e ∈ (edgesFromRefs p vis refs st).2,
        vis.contains e.source = true ∧ vis.contains e.target = true := by
  intro refs
  induction refs with
  | nil => intro st hst e he; exact hst e he
  | cons ref rest ih =>
    intro st hst e he
    by_cases hs : vis.contains ref.source = true
    · by_cases ht : vis.contains ref.target = true
      · by_cases hk : st.1.contains (ref.source ++ "->" ++ ref.target) = true
        · simp only [edgesFromRefs, hs, ht, hk] at he
          exact ih st hst e he
        · simp only [edgesFromRefs, hs, ht, hk] at he
          simp only [Bool.not_true, if_false, Bool.not_false, if_true] at he
          refine ih _ ?_ e he
          intro e' he'
          rcases List.mem_append.mp he' with hm | hm
          · exact hst e' hm
          · rcases List.mem_singleton.mp hm with rfl
            exact ⟨hs, ht⟩
      · simp only [edgesFromRefs, hs, ht] at he
        simp only [Bool.not_true, if_false, Bool.not_false, if_true] at he
        exact ih st hst e he
    · simp only [edgesFromRefs, hs] at he
      simp only [Bool.not_false, if_true] at he
      exact ih st hst e he

/-- A visible id is a node id. -/
theorem visible_mem_nodeIds {p : ParsedBmf} {id : String}
    (h : (visibleOf p).contains id = true) :
    id ∈ (buildGraph p).nodes.map (fun n => n.id) := by
  obtain ⟨e, he, -⟩ := mem_visibleOf.mp (contains_iff.mp h)
  exact mem_nodeIds.mpr ⟨e, he, h⟩

/-- C1: every edge of a built graph has both endpoints in the graph's
node id set — no edge is ever emitted whose endpoint is not a
materialized node. -/
theorem c1_edge_endpoints_are_nodes (p : ParsedBmf) :
    ∀ e ∈ (buildGraph p).edges,
      e.source ∈ (buildGraph p).nodes.map (fun n => n.id) ∧
      e.target ∈ (buildGraph p).nodes.map (fun n => n.id) := by
  intro e he
  have hvis : (visibleOf p).contains e.source = true ∧
      (visibleOf p).contains e.target = true := by
    have h3 := @edgesFromOutgoing_prop p (visibleOf p)
      (outgoingEdgesGo p (visibleOf p) p.entities []) ([], [])
      (outgoingEdgesGo_prop p.entities [] (by simp)) (by simp)
    exact edgesFromRefs_prop p.references _ h3 e he
  exact ⟨visible_mem_nodeIds hvis.1, visible_mem_nodeIds hvis.2⟩

/-- C1 witness: the theorem at the parsed scenario-1 document's single
edge. -/
theorem c1_witness :
    "action:t:finish" ∈ (buildGraph (parseBmfValue docFinish)).nodes.map (fun n => n.id) ∧
    "screen:t:results" ∈ (buildGraph (parseBmfValue docFinish)).nodes.map (fun n => n.id) :=
  c1_edge_endpoints_are_nodes (parseBmfValue docFinish)
    ⟨"action:t:finish->screen:t:results", "action:t:finish", "screen:t:results",
      some "action:t:finish_effect_0", "screen"⟩ (by decide)

/-- Lookup in a value-mapped association list. -/
theorem lookupStr_map {α β : Type} (f : α → β) :
    ∀ (l : List (String × α)) (k : String),
      lookupStr (l.map (fun kv => (kv.1, f kv.2))) k = (lookupStr l k).map f := by
  intro l
  induction l with
  | nil => intro k; rfl
  | cons kv rest ih =>
    intro k
    obtain ⟨k', v'⟩ := kv
    by_cases hk : k' = k
    · subst hk; simp [lookupStr]
    · simp [lookupStr, hk, ih]

/-- C5: after the single edge pass of the epic connectivity analysis,
every epic's centrality equals 2 × its external-edge count plus its
internal-edge count; on two epics A, B joined by exactly two cross edges
and no internal edges, both internal counters are 0, both external
counters and both pairwise weights are 2, and both centralities are 4. -/
theorem c5_centrality_analysis :
    (∀ (nodes edges : List (String × String)) (epic : String) (s : EpicStats),
      lookupStr (analyzeEpicConnections nodes edges).1 epic = some s →
      s.centrality = 2 * s.externalEdges + s.internalEdges) ∧
    (analyzeEpicConnections nodesAB edgesAB).1 =
      [("A", ⟨"A", 2, 0, 2, 4, [("B", 2)]⟩), ("B", ⟨"B", 2, 0, 2, 4, [("A", 2)]⟩)] := by
  constructor
  · intro nodes edges epic s h
    unfold analyzeEpicConnections at h
    simp only [] at h
    rw [lookupStr_map setCentrality] at h
    cases hl : lookupStr
        (epicEdgeGo (nodeToEpicGo nodes []) edges (initStats (epicNodesGo nodes []))) epic with
    | none => rw [hl] at h; exact absurd h (by simp)
    | some s' =>
      rw [hl] at h
      have hs : s = setCentrality s' := (Option.some.inj h).symm
      subst hs
      show s'.externalEdges * 2 + s'.internalEdges = 2 * s'.externalEdges + s'.internalEdges
      rw [Nat.mul_comm]
  · decide

/-- C5 witness: the centrality equation at epic A of the two-epic
scenario. -/
theorem c5_witness :
    (⟨"A", 2, 0, 2, 4, [("B", 2)]⟩ : EpicStats).centrality =
      2 * (⟨"A", 2, 0, 2, 4, [("B", 2)]⟩ : EpicStats).externalEdges +
        (⟨"A", 2, 0, 2, 4, [("B", 2)]⟩ : EpicStats).internalEdges :=
  c5_centrality_analysis.1 nodesAB edgesAB "A" ⟨"A", 2, 0, 2, 4, [("B", 2)]⟩ (by decide)

/-- The absorption loop appends the same elements to the community and
the assigned set. -/
theorem absorbLoop_append :
    ∀ (conns : List (String × Nat)) (community pre assigned : List String) (added : Nat),
      assigned = pre ++ community →
      (absorbLoop conns community assigned added).2 =
        pre ++ (absorbLoop conns community assigned added).1 := by
  intro conns
  induction conns with
  | nil => intro community pre assigned added h; simpa [absorbLoop] using h
  | cons cn rest ih =>
    intro community pre assigned added h
    obtain ⟨e, w⟩ := cn
    simp only [absorbLoop]
    split_ifs with h1 h2 h3 h4
    · exact ih _ _ _ _ h
    · simp [h, List.append_assoc]
    · exact ih _ _ _ _ (by simp [h, List.append_assoc])
    · exact h
    · exact ih _ _ _ _ h

/-- The absorption loop keeps the assigned set duplicate-free. -/
theorem absorbLoop_nodup :
    ∀ (conns : List (String × Nat)) (community assigned : List String) (added : Nat),
      assigned.Nodup → (absorbLoop conns community assigned added).2.Nodup := by
  intro conns
  induction conns with
  | nil => intro community assigned added h; simpa [absorbLoop] using h
  | cons cn rest ih =>
    intro community assigned added h
    obtain ⟨e, w⟩ := cn
    simp only [absorbLoop]
    have hext : e ∉ assigned → (assigned ++ [e]).Nodup := by
      intro he
      refine List.Nodup.append h (List.nodup_singleton e) ?_
      intro x hx hx'
      rcases List.mem_singleton.mp hx' with rfl
      exact he hx
    split_ifs with h1 h2 h3 h4
    · exact ih _ _ _ h
    · exact hext (fun hm => h1 (contains_iff.mpr hm))
    · exact ih _ _ _ (hext (fun hm => h1 (contains_iff.mpr hm)))
    · exact h
    · exact ih _ _ _ h

/-- The absorption loop only grows the community. -/
theorem absorbLoop_mono :
    ∀ (conns : List (String × Nat)) (community assigned : List String) (added : Nat)
      (x : String), x ∈ community → x ∈ (absorbLoop conns community assigned added).1 := by
  intro conns
  induction conns with
  | nil => intro community assigned added x hx; simpa [absorbLoop] using hx
  | cons cn rest ih =>
    intro community assigned added x hx
    obtain ⟨e, w⟩ := cn
    simp only [absorbLoop]
    split_ifs with h1 h2 h3 h4
    · exact ih _ _ _ _ hx
    · exact List.mem_append_left _ hx
    · exact ih _ _ _ _ (List.mem_append_left _ hx)
    · exact hx
    · exact ih _ _ _ _ hx

/-- Starting from at most 3 members, the absorption loop never exceeds
4. -/
theorem absorbLoop_cap :
    ∀ (conns : List (String × Nat)) (community assigned : List String) (added : Nat),
      community.length ≤ 3 → (absorbLoop conns community assigned added).1.length ≤ 4 := by
  intro conns
  induction conns with
  | nil => intro community assigned added h; simp [absorbLoop]; omega
  | cons cn rest ih =>
    intro community assigned added h
    obtain ⟨e, w⟩ := cn
    simp only [absorbLoop]
    split_ifs with h1 h2 h3 h4
    · exact ih _ _ _ h
    · simp [List.length_append]; omega
    · refine ih _ _ _ ?_
      simp [List.length_append] at h3 ⊢
      omega
    · omega
    · exact ih _ _ _ h

/-- Membership through the stable-insert step. -/
theorem mem_insertSorted {α : Type} (le : α → α → Bool) :
    ∀ (l : List α) (x a : α), a ∈ insertSorted le x l ↔ a = x ∨ a ∈ l := by
  intro l
  induction l with
  | nil => intro x a; simp [insertSorted]
  | cons y ys ih =>
    intro x a
    simp only [insertSorted]
    split_ifs with h
    · simp
    · rw [List.mem_cons, ih]
      constructor
      · rintro (rfl | rfl | hm)
        · exact Or.inr (List.mem_cons_self _ _)
        · exact Or.inl rfl
        · exact Or.inr (List.mem_cons_of_mem _ hm)
      · rintro (rfl | hm)
        · exact Or.inr (Or.inl rfl)
        · rcases List.mem_cons.mp hm with rfl | hm'
          · exact Or.inl rfl
          · exact Or.inr (Or.inr hm')

/-- The stable sort is a permutation up to membership. -/
theorem mem_stableSortBy {α : Type} (le : α → α → Bool) :
    ∀ (l : List α) (a : α), a ∈ stableSortBy le l ↔ a ∈ l := by
  intro l
  induction l with
  | nil => intro a; simp [stableSortBy]
  | cons x xs ih =>
    intro a
    simp only [stableSortBy]
    rw [mem_insertSorted, ih, List.mem_cons]

/-- Membership in the flattened member lists of a community list. -/
theorem mem_flatten_comms {cs : List (String × List String)} {x : String} :
    x ∈ (cs.map (fun c => c.2)).flatten ↔ ∃ c ∈ cs, x ∈ c.2 := by
  rw [List.mem_flatten]
  constructor
  · rintro ⟨l, hl, hx⟩
    obtain ⟨c, hc, rfl⟩ := List.mem_map.mp hl
    exact ⟨c, hc, hx⟩
  · rintro ⟨c, hc, hx⟩
    exact ⟨c.2, List.mem_map_of_mem _ hc, hx⟩

/-- With globally duplicate-free members, an epic contained in some
community is contained in exactly one. -/
theorem filter_count_one :
    ∀ (cs : List (String × List String)) (ep : String),
      ((cs.map (fun c => c.2)).flatten).Nodup →
      (∃ c ∈ cs, ep ∈ c.2) →
      (cs.filter (fun c => ep ∈ c.2)).length = 1 := by
  intro cs
  induction cs with
  | nil => intro ep _ hex; simp at hex
  | cons c0 rest ih =>
    intro ep hnd hex
    rw [List.map_cons, List.flatten_cons, List.nodup_append] at hnd
    by_cases hc : ep ∈ c0.2
    · have hfe : rest.filter (fun c => ep ∈ c.2) = [] := by
        rw [List.filter_eq_nil_iff]
        intro c hcrest hdec
        have hep : ep ∈ c.2 := by simpa using hdec
        exact (hnd.2.2 hc) (mem_flatten_comms.mpr ⟨c, hcrest, hep⟩)
      simp [List.filter_cons, hc, hfe]
    · have hex' : ∃ c ∈ rest, ep ∈ c.2 := by
        rcases hex with ⟨c, hcm, hcin⟩
        rcases List.mem_cons.mp hcm with rfl | hm
        · exact absurd hcin hc
        · exact ⟨c, hm, hcin⟩
      have hdec : (decide (ep ∈ c0.2)) = false := by simp [hc]
      simp only [List.filter_cons, hdec, Bool.false_eq_true, if_false]
      exact ih ep hnd.2.1 hex'

/-- Invariant of the seeding loop: given that the assigned set is
exactly the flattened communities, is duplicate-free, and all
communities are capped at 4, the loop's result has duplicate-free
flattened members, keeps every existing community, covers every
processed epic, and stays capped at 4. -/
theorem detectGo_spec (epicStats : List (String × EpicStats)) :
    ∀ (l : List String) (comms : List (String × List String)) (assigned : List String)
      (idx : Nat),
      assigned = (comms.map (fun c => c.2)).flatten →
      assigned.Nodup →
      (∀ c ∈ comms, c.2.length ≤ 4) →
      ((detectGo epicStats l comms assigned idx).map (fun c => c.2)).flatten.Nodup ∧
      (∀ c ∈ comms, c ∈ detectGo epicStats l comms assigned idx) ∧
      (∀ ep ∈ l, ∃ c ∈ detectGo epicStats l comms assigned idx, ep ∈ c.2) ∧
      (∀ c ∈ detectGo epicStats l comms assigned idx, c.2.length ≤ 4) := by
  intro l
  induction l with
  | nil =>
    intro comms assigned idx hassign hnd hcap
    refine ⟨?_, ?_, ?_, ?_⟩
    · show ((detectGo epicStats [] comms assigned idx).map (fun c => c.2)).flatten.Nodup
      simp only [detectGo]
      rw [← hassign]
      exact hnd
    · intro c hc
      simpa [detectGo] using hc
    · intro ep hep
      simp at hep
    · intro c hc
      exact hcap c (by simpa [detectGo] using hc)
  | cons epic rest ih =>
    intro comms assigned idx hassign hnd hcap
    by_cases hcont : assigned.contains epic = true
    · have hres := ih comms assigned idx hassign hnd hcap
      simp only [detectGo, hcont, if_true]
      refine ⟨hres.1, hres.2.1, ?_, hres.2.2.2⟩
      intro ep hep
      rcases List.mem_cons.mp hep with rfl | hm
      · have hfl : ep ∈ (comms.map (fun c => c.2)).flatten :=
          hassign ▸ contains_iff.mp hcont
        obtain ⟨c, hc, hcin⟩ := mem_flatten_comms.mp hfl
        exact ⟨c, hres.2.1 c hc, hcin⟩
      · exact hres.2.2.1 ep hm
    · have hepic : epic ∉ assigned := fun hm => hcont (contains_iff.mpr hm)
      have hnd1 : (assigned ++ [epic]).Nodup := by
        refine List.Nodup.append hnd (List.nodup_singleton epic) ?_
        intro x hx hx'
        rcases List.mem_singleton.mp hx' with rfl
        exact hepic hx
      have happ := absorbLoop_append (connectionsOf epicStats (assigned ++ [epic]) epic)
        [epic] assigned (assigned ++ [epic]) 0 rfl
      have hnd2 := absorbLoop_nodup (connectionsOf epicStats (assigned ++ [epic]) epic)
        [epic] (assigned ++ [epic]) 0 hnd1
      have hcap1 := absorbLoop_cap (connectionsOf epicStats (assigned ++ [epic]) epic)
        [epic] (assigned ++ [epic]) 0 (by simp)
      have hassign' :
          (absorbLoop (connectionsOf epicStats (assigned ++ [epic]) epic) [epic]
            (assigned ++ [epic]) 0).2 =
          ((comms ++ [("community-" ++ toString idx,
            (absorbLoop (connectionsOf epicStats (assigned ++ [epic]) epic) [epic]
              (assigned ++ [epic]) 0).1)]).map (fun c => c.2)).flatten := by
        rw [happ, hassign]
        simp
      have hcap' : ∀ c ∈ comms ++ [("community-" ++ toString idx,
          (absorbLoop (connectionsOf epicStats (assigned ++ [epic]) epic) [epic]
            (assigned ++ [epic]) 0).1)], c.2.length ≤ 4 := by
        intro c hc
        rcases List.mem_append.mp hc with hm | hm
        · exact hcap c hm
        · rcases List.mem_singleton.mp hm with rfl
          exact hcap1
      have hres := ih _ _ (idx + 1) hassign' hnd2 hcap'
      simp only [detectGo]
      rw [if_neg hcont]
      refine ⟨hres.1, ?_, ?_, hres.2.2.2⟩
      · intro c hc
        exact hres.2.1 c (List.mem_append_left _ hc)
      · intro ep hep
        rcases List.mem_cons.mp hep with rfl | hm
        · refine ⟨("community-" ++ toString idx,
            (absorbLoop (connectionsOf epicStats (assigned ++ [ep]) ep) [ep]
              (assigned ++ [ep]) 0).1),
            hres.2.1 _ (List.mem_append_right _ (List.mem_singleton_self _)), ?_⟩
          exact absorbLoop_mono _ [ep] _ 0 ep (List.mem_singleton_self ep)
        · exact hres.2.2.1 ep hm

/-- C6: the community detector returns a partition — every epic appears
in exactly one community; with at most 3 distinct epics it returns the
single trivial community holding all of them; and no community ever
holds more than 4 epics. -/
theorem c6_community_partition (epicStats : List (String × EpicStats)) :
    (∀ ep ∈ epicStats.map (fun kv => kv.1),
      ((detectEpicCommunities epicStats).filter (fun c => ep ∈ c.2)).length = 1) ∧
    ((epicStats.map (fun kv => kv.1)).length ≤ 3 →
      detectEpicCommunities epicStats = [("main", epicStats.map (fun kv => kv.1))]) ∧
    (∀ c ∈ detectEpicCommunities epicStats, c.2.length ≤ 4) := by
  by_cases hlen : (epicStats.map (fun kv => kv.1)).length ≤ 3
  · have hdet : detectEpicCommunities epicStats =
        [("main", epicStats.map (fun kv => kv.1))] := by
      unfold detectEpicCommunities
      rw [if_pos hlen]
    refine ⟨?_, fun _ => hdet, ?_⟩
    · intro ep hep
      rw [hdet]
      simp [List.filter_cons, hep]
    · intro c hc
      rw [hdet] at hc
      rcases List.mem_singleton.mp hc with rfl
      show (epicStats.map (fun kv => kv.1)).length ≤ 4
      omega
  · have hdet : detectEpicCommunities epicStats =
        detectGo epicStats
          (stableSortBy (fun a b => centralityOf epicStats b ≤ centralityOf epicStats a)
            (epicStats.map (fun kv => kv.1))) [] [] 0 := by
      unfold detectEpicCommunities
      rw [if_neg hlen]
    have hspec := detectGo_spec epicStats
      (stableSortBy (fun a b => centralityOf epicStats b ≤ centralityOf epicStats a)
        (epicStats.map (fun kv => kv.1))) [] [] 0 (by simp) (by simp) (by simp)
    refine ⟨?_, fun h3 => absurd h3 hlen, ?_⟩
    · intro ep hep
      rw [hdet]
      refine filter_count_one _ ep hspec.1 ?_
      exact hspec.2.2.1 ep ((mem_stableSortBy _ _ _).mpr hep)
    · intro c hc
      rw [hdet] at hc
      exact hspec.2.2.2 c hc

/-- C6 witness: the partition theorem at the five-epic statistics map. -/
theorem c6_witness :
    ((detectEpicCommunities statsFive).filter (fun c => "A" ∈ c.2)).length = 1 ∧
    (∀ c ∈ detectEpicCommunities statsFive, c.2.length ≤ 4) := by
  have h := c6_community_partition statsFive
  exact ⟨h.1 "A" (by decide), h.2.2⟩

/-- `Map.set` then `get` of the same key. -/
theorem lookupStr_jsMapSet_self {α : Type} :
    ∀ (l : List (String × α)) (k : String) (v : α),
      lookupStr (jsMapSet l k v) k = some v := by
  intro l
  induction l with
  | nil => intro k v; simp [jsMapSet, lookupStr]
  | cons kv rest ih =>
    intro k v
    obtain ⟨k', v'⟩ := kv
    by_cases hk : k' = k
    · subst hk; simp [jsMapSet, lookupStr]
    · simp [jsMapSet, hk, lookupStr, ih]

/-- `Map.set` then `get` of a different key. -/
theorem lookupStr_jsMapSet_ne {α : Type} :
    ∀ (l : List (String × α)) (k k' : String) (v : α), k' ≠ k →
      lookupStr (jsMapSet l k' v) k = lookupStr l k := by
  intro l
  induction l with
  | nil => intro k k' v h; simp [jsMapSet, lookupStr, h]
  | cons kv rest ih =>
    intro k k' v h
    obtain ⟨k0, v0⟩ := kv
    by_cases hk : k0 = k'
    · subst hk; simp [jsMapSet, lookupStr, h]
    · simp only [jsMapSet, hk, if_false]
      by_cases hk2 : k0 = k
      · subst hk2; simp [lookupStr]
      · simp [lookupStr, hk2, ih _ _ _ h]

/-- `Map.set` of a fresh key appends. -/
theorem jsMapSet_fresh {α : Type} :
    ∀ (l : List (String × α)) (k : String) (v : α), k ∉ l.map Prod.fst →
      jsMapSet l k v = l ++ [(k, v)] := by
  intro l
  induction l with
  | nil => intro k v _; rfl
  | cons kv rest ih =>
    intro k v h
    obtain ⟨k0, v0⟩ := kv
    simp only [List.map_cons, List.mem_cons] at h
    push_neg at h
    have hne : ¬ k0 = k := fun he => h.1 he.symm
    simp [jsMapSet, hne, ih _ _ h.2]

/-- Lookup misses keys not present. -/
theorem lookupStr_eq_none {α : Type} :
    ∀ (l : List (String × α)) (k : String), k ∉ l.map Prod.fst →
      lookupStr l k = none := by
  intro l
  induction l with
  | nil => intro k _; rfl
  | cons kv rest ih =>
    intro k h
    obtain ⟨k0, v0⟩ := kv
    simp only [List.map_cons, List.mem_cons] at h
    push_neg at h
    have hne : ¬ k0 = k := fun he => h.1 he.symm
    simp [lookupStr, hne, ih _ h.2]

/-- A member's recorded leaf ids are among the list's leaf ids. -/
theorem mem_leafIdsL_of_mem :
    ∀ (l : List ElkNode) (n : ElkNode), n ∈ l →
      ∀ x ∈ leafIdsN n, x ∈ leafIdsL l := by
  intro l
  induction l with
  | nil => intro n hn; simp at hn
  | cons c rest ih =>
    intro n hn x hx
    rcases List.mem_cons.mp hn with rfl | hm
    · exact List.mem_append_left _ hx
    · exact List.mem_append_right _ (ih n hm x hx)

/-- A reachable leaf's id is among the recorded leaf ids. -/
theorem leafPath_mem_ids :
    ∀ {l anc : List ElkNode} {leaf : ElkNode}, LeafPathL l anc leaf →
      leaf.id ∈ leafIdsL l := by
  intro l anc leaf h
  induction h with
  | here leaf l hm hch =>
    apply mem_leafIdsL_of_mem l leaf hm
    obtain ⟨cid, cx, cy, cch⟩ := leaf
    have hch' : cch = [] := hch
    subst hch'
    simp [leafIdsN, ElkNode.id]
  | deeper n l anc' leaf hn hnch hsub ih =>
    apply mem_leafIdsL_of_mem l n hn
    obtain ⟨cid, cx, cy, cch⟩ := n
    cases cch with
    | nil => exact absurd rfl hnch
    | cons c0 cs0 => simpa [leafIdsN] using ih

/-- Nodup of the left two pieces of a three-way append. -/
theorem nodup_append_left3 {A B C : List String} (h : (A ++ (B ++ C)).Nodup) :
    (A ++ B).Nodup := by
  rw [← List.append_assoc] at h
  exact h.sublist (List.sublist_append_left _ _)

/-- The middle piece of a duplicate-free three-way append avoids the
right piece. -/
theorem nodup_mid_right {A B C : List String} (h : (A ++ (B ++ C)).Nodup) :
    ∀ k ∈ B, k ∉ C := by
  intro k hkB hkC
  have hbc : (B ++ C).Nodup := h.sublist (List.sublist_append_right _ _)
  exact (List.disjoint_of_nodup_append hbc) hkB hkC

/-- The middle piece of a duplicate-free three-way append avoids the
left piece. -/
theorem nodup_mid_left {A B C : List String} (h : (A ++ (B ++ C)).Nodup) :
    ∀ k ∈ B, k ∉ A := by
  intro k hkB hkA
  exact (List.disjoint_of_nodup_append (nodup_append_left3 h)) hkA hkB

/-- The position walk leaves untouched the lookup of any key it does not
record. -/
theorem extract_preserved :
    ∀ (fuel : Nat) (l : List ElkNode) (x y : Int) (acc : List (String × Int × Int))
      (k : String), k ∉ leafIdsL l →
      lookupStr (extractChildrenFuel fuel l x y acc) k = lookupStr acc k := by
  intro fuel
  induction fuel with
  | zero => intro l x y acc k _; rfl
  | succ fuel ih =>
    intro l x y acc k hk
    cases l with
    | nil => rfl
    | cons c rest =>
      obtain ⟨cid, cx, cy, cch⟩ := c
      simp only [leafIdsL, List.mem_append] at hk
      push_neg at hk
      cases cch with
      | nil =>
        simp only [extractChildrenFuel, List.length_nil, gt_iff_lt, Nat.lt_irrefl, if_false]
        rw [ih rest x y _ k hk.2]
        exact lookupStr_jsMapSet_ne _ _ _ _
          (fun he => hk.1 (by simp [leafIdsN, he]))
      | cons c0 cs0 =>
        simp only [extractChildrenFuel, List.length_cons, gt_iff_lt,
          Nat.succ_pos, if_true]
        rw [ih rest x y _ k hk.2]
        exact ih (c0 :: cs0) _ _ _ k (by simpa [leafIdsN] using hk.1)

/-- Unfolding of `nListSize` over cons. -/
theorem nListSize_cons (c : ElkNode) (rest : List ElkNode) :
    nListSize (c :: rest) = 1 + nSize c + nListSize rest := rfl

/-- Unfolding of `nSize`. -/
theorem nSize_mk (cid : String) (cx cy : Option Int) (cch : List ElkNode) :
    nSize (.mk cid cx cy cch) = 1 + nListSize cch := rfl

/-- With enough fuel and globally fresh leaf ids, the position walk's
keys are the accumulator's keys followed by the recorded leaf ids, in
visit order. -/
theorem extract_keys :
    ∀ (fuel : Nat) (l : List ElkNode) (x y : Int) (acc : List (String × Int × Int)),
      nListSize l ≤ fuel →
      ((acc.map Prod.fst) ++ leafIdsL l).Nodup →
      (extractChildrenFuel fuel l x y acc).map Prod.fst =
        (acc.map Prod.fst) ++ leafIdsL l := by
  intro fuel
  induction fuel with
  | zero =>
    intro l x y acc hf _
    cases l with
    | nil => simp [extractChildrenFuel, leafIdsL]
    | cons c rest =>
      rw [nListSize_cons] at hf
      omega
  | succ fuel ih =>
    intro l x y acc hf hnd
    cases l with
    | nil => simp [extractChildrenFuel, leafIdsL]
    | cons c rest =>
      obtain ⟨cid, cx, cy, cch⟩ := c
      rw [nListSize_cons, nSize_mk] at hf
      cases cch with
      | nil =>
        simp only [extractChildrenFuel, List.length_nil, gt_iff_lt, Nat.lt_irrefl, if_false]
        have hids : leafIdsL (ElkNode.mk cid cx cy [] :: rest) = [cid] ++ leafIdsL rest := by
          simp [leafIdsL, leafIdsN]
        rw [hids] at hnd ⊢
        have hfresh : cid ∉ acc.map Prod.fst :=
          nodup_mid_left hnd cid (List.mem_singleton_self cid)
        rw [jsMapSet_fresh acc cid _ hfresh]
        have hkeys : (acc ++ [(cid, (x + cx.getD 0, y + cy.getD 0))]).map Prod.fst =
            acc.map Prod.fst ++ [cid] := by simp
        rw [ih rest x y _ (by omega) (by rw [hkeys, List.append_assoc]; exact hnd), hkeys,
          List.append_assoc]
      | cons c0 cs0 =>
        simp only [extractChildrenFuel, List.length_cons, gt_iff_lt, Nat.succ_pos, if_true]
        have hids : leafIdsL (ElkNode.mk cid cx cy (c0 :: cs0) :: rest) =
            leafIdsL (c0 :: cs0) ++ leafIdsL rest := by
          simp [leafIdsL, leafIdsN]
        rw [hids] at hnd ⊢
        rw [nListSize_cons] at hf
        have hsub : ((acc.map Prod.fst) ++ leafIdsL (c0 :: cs0)).Nodup :=
          nodup_append_left3 hnd
        have hkeys1 := ih (c0 :: cs0) (x + cx.getD 0) (y + cy.getD 0) acc
          (by rw [nListSize_cons]; omega) hsub
        rw [ih rest x y _ (by omega) (by rw [hkeys1, List.append_assoc]; exact hnd), hkeys1,
          List.append_assoc]

/-- Step case of `extract_lookup` when the path continues in the tail:
processing the head child (either recording it or walking its subtree)
extends the accumulator by the head's leaf ids, after which the
induction hypothesis applies to the tail. -/
theorem extract_lookup_rest (fuel : Nat) (cid : String) (cx cy : Option Int)
    (cch rest : List ElkNode) (x y : Int) (acc : List (String × Int × Int))
    (anc : List ElkNode) (leaf : ElkNode)
    (hf : nListSize (ElkNode.mk cid cx cy cch :: rest) ≤ fuel + 1)
    (hpath : LeafPathL rest anc leaf)
    (hnd : ((acc.map Prod.fst) ++ leafIdsL (ElkNode.mk cid cx cy cch :: rest)).Nodup)
    (IH : ∀ (l : List ElkNode) (x y : Int) (acc : List (String × Int × Int))
      (anc : List ElkNode) (leaf : ElkNode),
      nListSize l ≤ fuel → LeafPathL l anc leaf →
      ((acc.map Prod.fst) ++ leafIdsL l).Nodup →
      lookupStr (extractChildrenFuel fuel l x y acc) leaf.id =
        some (x + (anc.map xOr0).sum + xOr0 leaf, y + (anc.map yOr0).sum + yOr0 leaf)) :
    lookupStr (extractChildrenFuel (fuel + 1) (ElkNode.mk cid cx cy cch :: rest) x y acc)
        leaf.id =
      some (x + (anc.map xOr0).sum + xOr0 leaf, y + (anc.map yOr0).sum + yOr0 leaf) := by
  rw [nListSize_cons, nSize_mk] at hf
  cases cch with
  | nil =>
    simp only [extractChildrenFuel, List.length_nil, gt_iff_lt, Nat.lt_irrefl, if_false]
    have hids : leafIdsL (ElkNode.mk cid cx cy [] :: rest) = [cid] ++ leafIdsL rest := by
      simp [leafIdsL, leafIdsN]
    rw [hids] at hnd
    have hfresh : cid ∉ acc.map Prod.fst :=
      nodup_mid_left hnd cid (List.mem_singleton_self cid)
    rw [jsMapSet_fresh acc cid _ hfresh]
    refine IH rest x y _ anc leaf (by omega) hpath ?_
    have hkeys : (acc ++ [(cid, (x + cx.getD 0, y + cy.getD 0))]).map Prod.fst =
        acc.map Prod.fst ++ [cid] := by simp
    rw [hkeys, List.append_assoc]
    exact hnd
  | cons c0 cs0 =>
    simp only [extractChildrenFuel, List.length_cons, gt_iff_lt, Nat.succ_pos, if_true]
    have hids : leafIdsL (ElkNode.mk cid cx cy (c0 :: cs0) :: rest) =
        leafIdsL (c0 :: cs0) ++ leafIdsL rest := by
      simp [leafIdsL, leafIdsN]
    rw [hids] at hnd
    rw [nListSize_cons] at hf
    have hkeys1 := extract_keys fuel (c0 :: cs0) (x + cx.getD 0) (y + cy.getD 0) acc
      (by rw [nListSize_cons]; omega) (nodup_append_left3 hnd)
    refine IH rest x y _ anc leaf (by omega) hpath ?_
    rw [hkeys1, List.append_assoc]
    exact hnd

/-- With enough fuel and globally fresh leaf ids, the position walk
records a reachable leaf at the running offset plus the x/y coordinates
of its ancestor containers plus its own. -/
theorem extract_lookup :
    ∀ (fuel : Nat) (l : List ElkNode) (x y : Int) (acc : List (String × Int × Int))
      (anc : List ElkNode) (leaf : ElkNode),
      nListSize l ≤ fuel →
      LeafPathL l anc leaf →
      ((acc.map Prod.fst) ++ leafIdsL l).Nodup →
      lookupStr (extractChildrenFuel fuel l x y acc) leaf.id =
        some (x + (anc.map xOr0).sum + xOr0 leaf, y + (anc.map yOr0).sum + yOr0 leaf) := by
  intro fuel
  induction fuel with
  | zero =>
    intro l x y acc anc leaf hf hpath _
    cases l with
    | nil =>
      cases hpath with
      | here _ _ hm _ => simp at hm
      | deeper _ _ _ _ hm _ _ => simp at hm
    | cons c rest => rw [nListSize_cons] at hf; omega
  | succ fuel ih =>
    intro l x y acc anc leaf hf hpath hnd
    cases l with
    | nil =>
      cases hpath with
      | here _ _ hm _ => simp at hm
      | deeper _ _ _ _ hm _ _ => simp at hm
    | cons c rest =>
      obtain ⟨cid, cx, cy, cch⟩ := c
      cases hpath with
      | here _ _ hm hch =>
        rcases List.mem_cons.mp hm with heq | hm'
        · subst heq
          have hc : cch = [] := hch
          subst hc
          rw [nListSize_cons, nSize_mk] at hf
          simp only [extractChildrenFuel, List.length_nil, gt_iff_lt, Nat.lt_irrefl,
            if_false]
          have hids : leafIdsL (ElkNode.mk cid cx cy [] :: rest) =
              [cid] ++ leafIdsL rest := by
            simp [leafIdsL, leafIdsN]
          rw [hids] at hnd
          rw [show (ElkNode.mk cid cx cy []).id = cid from rfl]
          rw [extract_preserved fuel rest x y _ _
            (nodup_mid_right hnd cid (List.mem_singleton_self cid))]
          rw [lookupStr_jsMapSet_self]
          simp [xOr0, yOr0, ElkNode.x, ElkNode.y]
        · exact extract_lookup_rest fuel cid cx cy cch rest x y acc [] leaf hf
            (LeafPathL.here leaf rest hm' hch) hnd ih
      | deeper n _ anc' _ hn hnch hsub =>
        rcases List.mem_cons.mp hn with heq | hm'
        · subst heq
          cases hcc : cch with
          | nil =>
            exact absurd (by simp [hcc, ElkNode.children]) hnch
          | cons c0 cs0 =>
            subst hcc
            rw [nListSize_cons, nSize_mk] at hf
            simp only [extractChildrenFuel, List.length_cons, gt_iff_lt, Nat.succ_pos,
              if_true]
            have hids : leafIdsL (ElkNode.mk cid cx cy (c0 :: cs0) :: rest) =
                leafIdsL (c0 :: cs0) ++ leafIdsL rest := by
              simp [leafIdsL, leafIdsN]
            rw [hids] at hnd
            rw [nListSize_cons] at hf
            have hsub' : LeafPathL (c0 :: cs0) anc' leaf := hsub
            have hmemids : leaf.id ∈ leafIdsL (c0 :: cs0) := leafPath_mem_ids hsub'
            rw [extract_preserved fuel rest x y _ _
              (nodup_mid_right hnd leaf.id hmemids)]
            rw [ih (c0 :: cs0) (x + cx.getD 0) (y + cy.getD 0) acc anc' leaf
              (by rw [nListSize_cons]; omega) hsub' (nodup_append_left3 hnd)]
            have hx : x + cx.getD 0 + (anc'.map xOr0).sum + xOr0 leaf =
                x + ((ElkNode.mk cid cx cy (c0 :: cs0) :: anc').map xOr0).sum + xOr0 leaf := by
              simp [xOr0, ElkNode.x, List.map_cons, List.sum_cons]
              ring
            have hy : y + cy.getD 0 + (anc'.map yOr0).sum + yOr0 leaf =
                y + ((ElkNode.mk cid cx cy (c0 :: cs0) :: anc').map yOr0).sum + yOr0 leaf := by
              simp [yOr0, ElkNode.y, List.map_cons, List.sum_cons]
              ring
            rw [hx, hy]
        · exact extract_lookup_rest fuel cid cx cy cch rest x y acc (n :: anc') leaf hf
            (LeafPathL.deeper n rest anc' leaf hm' hnch hsub) hnd ih

/-- The forest walk leaves untouched the lookup of any key it does not
record. -/
theorem collectGo_preserved :
    ∀ (roots : List ElkNode) (acc : List (String × Int × Int)) (k : String),
      k ∉ leafIdsRoots roots →
      lookupStr (collectPositionsGo roots acc) k = lookupStr acc k := by
  intro roots
  induction roots with
  | nil => intro acc k _; rfl
  | cons r rest ih =>
    intro acc k hk
    obtain ⟨rid, rx, ry, rch⟩ := r
    simp only [leafIdsRoots, List.mem_append] at hk
    push_neg at hk
    simp only [collectPositionsGo, extractPositions]
    rw [ih _ k hk.2, extract_preserved _ rch _ _ acc k hk.1]

/-- Over a forest with globally fresh leaf ids, the position map
resolves a reachable leaf to its root's coordinates plus its ancestor
containers' plus its own. -/
theorem collectGo_lookup :
    ∀ (roots : List ElkNode) (acc : List (String × Int × Int)) (root : ElkNode)
      (anc : List ElkNode) (leaf : ElkNode),
      root ∈ roots → LeafPathL root.children anc leaf →
      ((acc.map Prod.fst) ++ leafIdsRoots roots).Nodup →
      lookupStr (collectPositionsGo roots acc) leaf.id =
        some (xOr0 root + (anc.map xOr0).sum + xOr0 leaf,
          yOr0 root + (anc.map yOr0).sum + yOr0 leaf) := by
  intro roots
  induction roots with
  | nil => intro acc root anc leaf hm; simp at hm
  | cons r rest ih =>
    intro acc root anc leaf hm hpath hnd
    obtain ⟨rid, rx, ry, rch⟩ := r
    have hids : leafIdsRoots (ElkNode.mk rid rx ry rch :: rest) =
        leafIdsL rch ++ leafIdsRoots rest := rfl
    rw [hids] at hnd
    rcases List.mem_cons.mp hm with heq | hm'
    · subst heq
      simp only [collectPositionsGo, extractPositions]
      have hpath' : LeafPathL rch anc leaf := hpath
      have hmemids : leaf.id ∈ leafIdsL rch := leafPath_mem_ids hpath'
      rw [collectGo_preserved rest _ leaf.id (nodup_mid_right hnd leaf.id hmemids)]
      rw [extract_lookup (nListSize rch) rch (0 + rx.getD 0) (0 + ry.getD 0) acc anc leaf
        le_rfl hpath' (nodup_append_left3 hnd)]
      simp [xOr0, yOr0, ElkNode.x, ElkNode.y]
    · simp only [collectPositionsGo, extractPositions]
      have hkeys := extract_keys (nListSize rch) rch (0 + rx.getD 0) (0 + ry.getD 0) acc
        le_rfl (nodup_append_left3 hnd)
      refine ih _ root anc leaf hm' hpath ?_
      rw [hkeys, List.append_assoc]
      exact hnd

/-- C9: the resolver assigns each leaf reachable through the layout
result tree an absolute position equal to its own relative coordinates
plus the coordinates of all its ancestor containers (missing coordinates
default to 0), and any node the engine dropped from the result resolves
to the origin (0, 0) instead of failing. -/
theorem c9_absolute_positions :
    (∀ (roots : List ElkNode) (root : ElkNode) (anc : List ElkNode) (leaf : ElkNode)
      (nodeIds : List String),
      root ∈ roots → LeafPathL root.children anc leaf →
      (leafIdsRoots roots).Nodup → leaf.id ∈ nodeIds →
      (leaf.id, xOr0 root + (anc.map xOr0).sum + xOr0 leaf,
        yOr0 root + (anc.map yOr0).sum + yOr0 leaf) ∈
        resolveNodePositions roots nodeIds) ∧
    (∀ (roots : List ElkNode) (nid : String) (nodeIds : List String),
      nid ∈ nodeIds → nid ∉ (collectPositions roots).map Prod.fst →
      (nid, 0, 0) ∈ resolveNodePositions roots nodeIds) := by
  constructor
  · intro roots root anc leaf nodeIds hroot hpath hnd hin
    have hlook := collectGo_lookup roots [] root anc leaf hroot hpath (by simpa using hnd)
    unfold resolveNodePositions
    refine List.mem_map.mpr ⟨leaf.id, hin, ?_⟩
    simp only [collectPositions] at hlook ⊢
    rw [hlook]
    rfl
  · intro roots nid nodeIds hin hnot
    have hlook : lookupStr (collectPositions roots) nid = none := lookupStr_eq_none _ _ hnot
    unfold resolveNodePositions
    exact List.mem_map.mpr ⟨nid, hin, by
      simp only [collectPositions] at hlook ⊢
      rw [hlook]
      rfl⟩

/-- C9 witness: the theorem at the concrete two-level tree (leaf2 at
10+5+100 and 20+5+200) and at a dropped node id. -/
theorem c9_witness :
    ("leaf2", (115 : Int), (225 : Int)) ∈
      resolveNodePositions elkTree ["leaf", "leaf2", "ghost"] ∧
    ("ghost", (0 : Int), (0 : Int)) ∈ resolveNodePositions elkTree ["leaf", "leaf2", "ghost"] := by
  constructor
  · have hpath : LeafPathL (ElkNode.mk "c" (some 10) (some 20)
        [ElkNode.mk "leaf" (some 1) (some 2) [],
         ElkNode.mk "inner" (some 5) (some 5)
           [ElkNode.mk "leaf2" (some 100) (some 200) []]]).children
        [ElkNode.mk "inner" (some 5) (some 5) [ElkNode.mk "leaf2" (some 100) (some 200) []]]
        (ElkNode.mk "leaf2" (some 100) (some 200) []) := by
      refine LeafPathL.deeper _ _ [] _ ?_ ?_ ?_
      · exact List.mem_cons_of_mem _ (List.mem_singleton_self _)
      · simp [ElkNode.children]
      · exact LeafPathL.here _ _ (List.mem_singleton_self _) rfl
    have h := c9_absolute_positions.1 elkTree
      (ElkNode.mk "c" (some 10) (some 20)
        [ElkNode.mk "leaf" (some 1) (some 2) [],
         ElkNode.mk "inner" (some 5) (some 5)
           [ElkNode.mk "leaf2" (some 100) (some 200) []]])
      [ElkNode.mk "inner" (some 5) (some 5) [ElkNode.mk "leaf2" (some 100) (some 200) []]]
      (ElkNode.mk "leaf2" (some 100) (some 200) [])
      ["leaf", "leaf2", "ghost"]
      (by unfold elkTree; exact List.mem_singleton_self _)
      hpath (by decide) (by decide)
    simpa [xOr0, yOr0, ElkNode.x, ElkNode.y, ElkNode.id] using h
  · exact c9_absolute_positions.2 elkTree "ghost" ["leaf", "leaf2", "ghost"]
      (by decide) (by decide)

/-- Dedup invariant through the inner third-pass loop: keys only grow,
every edge's id is a recorded key of the `source->target` shape, and
edge ids stay duplicate-free. -/
theorem edgesFromTargets_inv {p : ParsedBmf} {sourceId : String} :
    ∀ (targets : List (String × String)) (st : List String × List BmfGraphEdge),
      (∀ e ∈ st.2, e.id ∈ st.1 ∧ e.id = e.source ++ "->" ++ e.target) →
      (st.2.map (fun e => e.id)).Nodup →
      (∀ k ∈ st.1, k ∈ (edgesFromTargets p sourceId targets st).1) ∧
      (∀ e ∈ (edgesFromTargets p sourceId targets st).2,
        e.id ∈ (edgesFromTargets p sourceId targets st).1 ∧
        e.id = e.source ++ "->" ++ e.target) ∧
      ((edgesFromTargets p sourceId targets st).2.map (fun e => e.id)).Nodup := by
  intro targets
  induction targets with
  | nil => intro st h1 h2; exact ⟨fun k hk => hk, h1, h2⟩
  | cons tc rest ih =>
    intro st h1 h2
    obtain ⟨targetId, componentId⟩ := tc
    by_cases hk : st.1.contains (sourceId ++ "->" ++ targetId) = true
    · simp only [edgesFromTargets, hk, if_true]
      exact ih st h1 h2
    · simp only [edgesFromTargets, hk, if_false]
      have hfresh : (sourceId ++ "->" ++ targetId) ∉ st.2.map (fun e => e.id) := by
        intro hmem
        obtain ⟨e, he, heid⟩ := List.mem_map.mp hmem
        exact hk (contains_iff.mpr (heid ▸ (h1 e he).1))
      have h1' : ∀ e ∈ st.2 ++
          [(⟨sourceId ++ "->" ++ targetId, sourceId, targetId, some componentId,
            targetTypeOf p targetId⟩ : BmfGraphEdge)],
          e.id ∈ st.1 ++ [sourceId ++ "->" ++ targetId] ∧
          e.id = e.source ++ "->" ++ e.target := by
        intro e he
        rcases List.mem_append.mp he with hm | hm
        · exact ⟨List.mem_append_left _ (h1 e hm).1, (h1 e hm).2⟩
        · rcases List.mem_singleton.mp hm with rfl
          exact ⟨List.mem_append_right _ (List.mem_singleton_self _), rfl⟩
      have h2' : ((st.2 ++
          [(⟨sourceId ++ "->" ++ targetId, sourceId, targetId, some componentId,
            targetTypeOf p targetId⟩ : BmfGraphEdge)]).map (fun e => e.id)).Nodup := by
        rw [List.map_append]
        refine List.Nodup.append h2 (by simp) ?_
        intro x hx hx'
        simp only [List.map_cons, List.map_nil, List.mem_singleton] at hx'
        subst hx'
        exact hfresh hx
      obtain ⟨hmono, hinv, hnd⟩ := ih (st.1 ++ [sourceId ++ "->" ++ targetId],
        st.2 ++ [(⟨sourceId ++ "->" ++ targetId, sourceId, targetId, some componentId,
          targetTypeOf p targetId⟩ : BmfGraphEdge)]) h1' h2'
      exact ⟨fun k hk2 => hmono k (List.mem_append_left _ hk2), hinv, hnd⟩

/-- Dedup invariant through the outer third-pass loop. -/
theorem edgesFromOutgoing_inv {p : ParsedBmf} :
    ∀ (og : List (String × List (String × String))) (st : List String × List BmfGraphEdge),
      (∀ e ∈ st.2, e.id ∈ st.1 ∧ e.id = e.source ++ "->" ++ e.target) →
      (st.2.map (fun e => e.id)).Nodup →
      (∀ k ∈ st.1, k ∈ (edgesFromOutgoing p og st).1) ∧
      (∀ e ∈ (edgesFromOutgoing p og st).2,
        e.id ∈ (edgesFromOutgoing p og st).1 ∧
        e.id = e.source ++ "->" ++ e.target) ∧
      ((edgesFromOutgoing p og st).2.map (fun e => e.id)).Nodup := by
  intro og
  induction og with
  | nil => intro st h1 h2; exact ⟨fun k hk => hk, h1, h2⟩
  | cons s rest ih =>
    intro st h1 h2
    obtain ⟨sourceId, targets⟩ := s
    simp only [edgesFromOutgoing]
    obtain ⟨hmono1, hinv1, hnd1⟩ := edgesFromTargets_inv targets st h1 h2
    obtain ⟨hmono2, hinv2, hnd2⟩ := ih _ hinv1 hnd1
    exact ⟨fun k hk => hmono2 k (hmono1 k hk), hinv2, hnd2⟩

/-- Dedup invariant through the fourth pass. -/
theorem edgesFromRefs_inv {p : ParsedBmf} {vis : List String} :
    ∀ (refs : List BmfReference) (st : List String × List BmfGraphEdge),
      (∀ e ∈ st.2, e.id ∈ st.1 ∧ e.id = e.source ++ "->" ++ e.target) →
      (st.2.map (fun e => e.id)).Nodup →
      (∀ k ∈ st.1, k ∈ (edgesFromRefs p vis refs st).1) ∧
      (∀ e ∈ (edgesFromRefs p vis refs st).2,
        e.id ∈ (edgesFromRefs p vis refs st).1 ∧
        e.id = e.source ++ "->" ++ e.target) ∧
      ((edgesFromRefs p vis refs st).2.map (fun e => e.id)).Nodup := by
  intro refs
  induction refs with
  | nil => intro st h1 h2; exact ⟨fun k hk => hk, h1, h2⟩
  | cons ref rest ih =>
    intro st h1 h2
    by_cases hs : vis.contains ref.source = true
    · by_cases ht : vis.contains ref.target = true
      · by_cases hk : st.1.contains (ref.source ++ "->" ++ ref.target) = true
        · simp only [edgesFromRefs, hs, ht, hk, Bool.not_true, if_false, Bool.not_false,
            if_true]
          exact ih st h1 h2
        · simp only [edgesFromRefs, hs, ht, hk, Bool.not_true, if_false, Bool.not_false,
            if_true]
          have hfresh : (ref.source ++ "->" ++ ref.target) ∉ st.2.map (fun e => e.id) := by
            intro hmem
            obtain ⟨e, he, heid⟩ := List.mem_map.mp hmem
            exact hk (contains_iff.mpr (heid ▸ (h1 e he).1))
          have h1' : ∀ e ∈ st.2 ++
              [(⟨ref.source ++ "->" ++ ref.target, ref.source, ref.target, none,
                (match lookupStr p.entities ref.target with
                 | some e => jsOrStr e.type ref.targetType
                 | none => ref.targetType)⟩ : BmfGraphEdge)],
              e.id ∈ st.1 ++ [ref.source ++ "->" ++ ref.target] ∧
              e.id = e.source ++ "->" ++ e.target := by
            intro e he
            rcases List.mem_append.mp he with hm | hm
            · exact ⟨List.mem_append_left _ (h1 e hm).1, (h1 e hm).2⟩
            · rcases List.mem_singleton.mp hm with rfl
              exact ⟨List.mem_append_right _ (List.mem_singleton_self _), rfl⟩
          have h2' : ((st.2 ++
              [(⟨ref.source ++ "->" ++ ref.target, ref.source, ref.target, none,
                (match lookupStr p.entities ref.target with
                 | some e => jsOrStr e.type ref.targetType
                 | none => ref.targetType)⟩ : BmfGraphEdge)]).map (fun e => e.id)).Nodup := by
            rw [List.map_append]
            refine List.Nodup.append h2 (by simp) ?_
            intro x hx hx'
            simp only [List.map_cons, List.map_nil, List.mem_singleton] at hx'
            subst hx'
            exact hfresh hx
          obtain ⟨hmono, hinv, hnd⟩ := ih (st.1 ++ [ref.source ++ "->" ++ ref.target],
            st.2 ++ [(⟨ref.source ++ "->" ++ ref.target, ref.source, ref.target, none,
              (match lookupStr p.entities ref.target with
               | some e => jsOrStr e.type ref.targetType
               | none => ref.targetType)⟩ : BmfGraphEdge)]) h1' h2'
          exact ⟨fun k hk2 => hmono k (List.mem_append_left _ hk2), hinv, hnd⟩
      · simp only [edgesFromRefs, hs, ht, Bool.not_true, if_false, Bool.not_false, if_true]
        exact ih st h1 h2
    · simp only [edgesFromRefs, hs, Bool.not_false, if_true]
      exact ih st h1 h2

/-- `lookupStr` misses a snoc exactly when it misses the prefix and the
appended key differs. -/
theorem lookupStr_snoc_none {α : Type} :
    ∀ (l : List (String × α)) (r : String) (v : α) (t : String),
      lookupStr (l ++ [(r, v)]) t = none → lookupStr l t = none ∧ t ≠ r := by
  intro l
  induction l with
  | nil =>
    intro r v t h
    simp only [List.nil_append, lookupStr] at h
    by_cases hrt : r = t
    · rw [if_pos hrt] at h; exact absurd h (by simp)
    · exact ⟨rfl, fun he => hrt he.symm⟩
  | cons kv rest ih =>
    intro r v t h
    obtain ⟨k, w⟩ := kv
    simp only [List.cons_append, lookupStr] at h ⊢
    by_cases hk : k = t
    · rw [if_pos hk] at h; exact absurd h (by simp)
    · rw [if_neg hk] at h ⊢
      exact ih r v t h

/-- A pair in the outgoing map of one entity either came from the
accumulator or records the first flattened component whose reference is
that (nonempty, visible) target. -/
theorem outgoingGo_mem {vis : List String} :
    ∀ (flat : List FlatComponent) (acc : List (String × String)) (t cid : String),
      (t, cid) ∈ outgoingGo vis flat acc →
      (t, cid) ∈ acc ∨ (t ≠ "" ∧ vis.contains t = true ∧ lookupStr acc t = none ∧
        ∃ comp, flat.find? (fun c => c.reference == some t) = some comp ∧ comp.id = cid) := by
  intro flat
  induction flat with
  | nil =>
    intro acc t cid h
    simp only [outgoingGo] at h
    exact Or.inl h
  | cons comp rest ih =>
    intro acc t cid h
    cases hcr : comp.reference with
    | none =>
      simp only [outgoingGo, hcr] at h
      rcases ih acc t cid h with hl | ⟨ht, hv, hnone, c, hfind, hcid⟩
      · exact Or.inl hl
      · refine Or.inr ⟨ht, hv, hnone, c, ?_, hcid⟩
        rw [List.find?_cons_of_neg _ (by simp [hcr]), hfind]
    | some r =>
      simp only [outgoingGo, hcr] at h
      by_cases hr0 : r = ""
      · rw [if_neg (not_not_intro hr0)] at h
        rcases ih acc t cid h with hl | ⟨ht, hv, hnone, c, hfind, hcid⟩
        · exact Or.inl hl
        · have hrt : r ≠ t := fun he => ht (he.symm.trans hr0)
          refine Or.inr ⟨ht, hv, hnone, c, ?_, hcid⟩
          rw [List.find?_cons_of_neg _ (by simp [hcr, hrt]), hfind]
      · rw [if_pos hr0] at h
        by_cases hvr : vis.contains r = true
        · rw [if_pos hvr] at h
          by_cases hlk : (lookupStr acc r).isSome = true
          · rw [if_pos hlk] at h
            rcases ih acc t cid h with hl | ⟨ht, hv, hnone, c, hfind, hcid⟩
            · exact Or.inl hl
            · have hrt : r ≠ t := by
                intro he
                rw [he, hnone] at hlk
                exact absurd hlk (by simp)
              refine Or.inr ⟨ht, hv, hnone, c, ?_, hcid⟩
              rw [List.find?_cons_of_neg _ (by simp [hcr, hrt]), hfind]
          · rw [if_neg hlk] at h
            rcases ih _ t cid h with hl | ⟨ht, hv, hnone, c, hfind, hcid⟩
            · rcases List.mem_append.mp hl with hin | hin
              · exact Or.inl hin
              · rcases List.mem_singleton.mp hin with heq
                obtain ⟨h1, h2⟩ := Prod.mk.inj heq
                subst h1; subst h2
                refine Or.inr ⟨hr0, hvr,
                  Option.not_isSome_iff_eq_none.mp (by simp [hlk]), comp, ?_, rfl⟩
                rw [List.find?_cons_of_pos _ (by simp [hcr])]
            · obtain ⟨hnone', hrt'⟩ := lookupStr_snoc_none acc r comp.id t hnone
              have hrt : r ≠ t := fun he => hrt' he.symm
              refine Or.inr ⟨ht, hv, hnone', c, ?_, hcid⟩
              rw [List.find?_cons_of_neg _ (by simp [hcr, hrt]), hfind]
        · rw [if_neg hvr] at h
          rcases ih acc t cid h with hl | ⟨ht, hv, hnone, c, hfind, hcid⟩
          · exact Or.inl hl
          · have hrt : r ≠ t := fun he => hvr (he ▸ hv)
            refine Or.inr ⟨ht, hv, hnone, c, ?_, hcid⟩
            rw [List.find?_cons_of_neg _ (by simp [hcr, hrt]), hfind]

/-- Each entry of the second-pass outgoing list either came from the
accumulator or is the outgoing map of one visible entity of the list. -/
theorem outgoingEdgesGo_mem {p : ParsedBmf} {vis : List String} :
    ∀ (l : List (String × BmfEntity)) (acc : List (String × List (String × String)))
      (s : String) (ts : List (String × String)),
      (s, ts) ∈ outgoingEdgesGo p vis l acc →
      (s, ts) ∈ acc ∨ ∃ ent, (s, ent) ∈ l ∧ vis.contains s = true ∧
        ts = outgoingGo vis (flatComponentsOf ent s) [] := by
  intro l
  induction l with
  | nil =>
    intro acc s ts h
    simp only [outgoingEdgesGo] at h
    exact Or.inl h
  | cons idE rest ih =>
    intro acc s ts h
    obtain ⟨id, e⟩ := idE
    simp only [outgoingEdgesGo] at h
    by_cases hv : vis.contains id = true
    · rw [if_pos hv] at h
      rcases ih _ s ts h with hl | ⟨ent, hm, hvs, hts⟩
      · rcases List.mem_append.mp hl with hin | hin
        · exact Or.inl hin
        · rcases List.mem_singleton.mp hin with heq
          obtain ⟨h1, h2⟩ := Prod.mk.inj heq
          subst h1; subst h2
          exact Or.inr ⟨e, List.mem_cons_self _ _, hv, rfl⟩
      · exact Or.inr ⟨ent, List.mem_cons_of_mem _ hm, hvs, hts⟩
    · rw [if_neg hv] at h
      rcases ih acc s ts h with hl | ⟨ent, hm, hvs, hts⟩
      · exact Or.inl hl
      · exact Or.inr ⟨ent, List.mem_cons_of_mem _ hm, hvs, hts⟩

/-- Anchor provenance through the inner third-pass loop: every anchored
edge records the first flattened component referencing its target. -/
theorem edgesFromTargets_anchor {p : ParsedBmf} {sourceId : String} :
    ∀ (targets : List (String × String)) (st : List String × List BmfGraphEdge),
      (∀ t cid, (t, cid) ∈ targets →
        ∃ ent comp, lookupStr p.entities sourceId = some ent ∧
          (flatComponentsOf ent sourceId).find? (fun c => c.reference == some t) =
            some comp ∧ comp.id = cid) →
      (∀ e ∈ st.2, ∀ cid, e.sourceElement = some cid →
        ∃ ent comp, lookupStr p.entities e.source = some ent ∧
          (flatComponentsOf ent e.source).find? (fun c => c.reference == some e.target) =
            some comp ∧ comp.id = cid) →
      ∀ e ∈ (edgesFromTargets p sourceId targets st).2, ∀ cid, e.sourceElement = some cid →
        ∃ ent comp, lookupStr p.entities e.source = some ent ∧
          (flatComponentsOf ent e.source).find? (fun c => c.reference == some e.target) =
            some comp ∧ comp.id = cid := by
  intro targets
  induction targets with
  | nil => intro st _ hst; exact hst
  | cons tc rest ih =>
    intro st hts hst
    obtain ⟨targetId, componentId⟩ := tc
    by_cases hk : st.1.contains (sourceId ++ "->" ++ targetId) = true
    · simp only [edgesFromTargets, hk, if_true]
      exact ih st (fun t cid hm => hts t cid (List.mem_cons_of_mem _ hm)) hst
    · simp only [edgesFromTargets, hk, if_false]
      refine ih _ (fun t cid hm => hts t cid (List.mem_cons_of_mem _ hm)) ?_
      intro e he cid hse
      rcases List.mem_append.mp he with hm | hm
      · exact hst e hm cid hse
      · rcases List.mem_singleton.mp hm with rfl
        simp only at hse
        rcases Option.some.inj hse with rfl
        exact hts targetId _ (List.mem_cons_self _ _)

/-- Anchor provenance through the outer third-pass loop. -/
theorem edgesFromOutgoing_anchor {p : ParsedBmf} :
    ∀ (og : List (String × List (String × String))) (st : List String × List BmfGraphEdge),
      (∀ s ts, (s, ts) ∈ og → ∀ t cid, (t, cid) ∈ ts →
        ∃ ent comp, lookupStr p.entities s = some ent ∧
          (flatComponentsOf ent s).find? (fun c => c.reference == some t) =
            some comp ∧ comp.id = cid) →
      (∀ e ∈ st.2, ∀ cid, e.sourceElement = some cid →
        ∃ ent comp, lookupStr p.entities e.source = some ent ∧
          (flatComponentsOf ent e.source).find? (fun c => c.reference == some e.target) =
            some comp ∧ comp.id = cid) →
      ∀ e ∈ (edgesFromOutgoing p og st).2, ∀ cid, e.sourceElement = some cid →
        ∃ ent comp, lookupStr p.entities e.source = some ent ∧
          (flatComponentsOf ent e.source).find? (fun c => c.reference == some e.target) =
            some comp ∧ comp.id = cid := by
  intro og
  induction og with
  | nil => intro st _ hst; exact hst
  | cons s rest ih =>
    intro st hog hst
    obtain ⟨sourceId, targets⟩ := s
    simp only [edgesFromOutgoing]
    refine ih _ (fun s ts hm => hog s ts (List.mem_cons_of_mem _ hm)) ?_
    exact edgesFromTargets_anchor targets st
      (hog sourceId targets (List.mem_cons_self _ _)) hst

/-- The fourth pass pushes only unanchored edges, so anchor provenance
is preserved. -/
theorem edgesFromRefs_anchor {p : ParsedBmf} {vis : List String} :
    ∀ (refs : List BmfReference) (st : List String × List BmfGraphEdge),
      (∀ e ∈ st.2, ∀ cid, e.sourceElement = some cid →
        ∃ ent comp, lookupStr p.entities e.source = some ent ∧
          (flatComponentsOf ent e.source).find? (fun c => c.reference == some e.target) =
            some comp ∧ comp.id = cid) →
      ∀ e ∈ (edgesFromRefs p vis refs st).2, ∀ cid, e.sourceElement = some cid →
        ∃ ent comp, lookupStr p.entities e.source = some ent ∧
          (flatComponentsOf ent e.source).find? (fun c => c.reference == some e.target) =
            some comp ∧ comp.id = cid := by
  intro refs
  induction refs with
  | nil => intro st hst; exact hst
  | cons ref rest ih =>
    intro st hst
    by_cases hs : vis.contains ref.source = true
    · by_cases ht : vis.contains ref.target = true
      · by_cases hk : st.1.contains (ref.source ++ "->" ++ ref.target) = true
        · simp only [edgesFromRefs, hs, ht, hk, Bool.not_true, if_false, Bool.not_false,
            if_true]
          exact ih st hst
        · simp only [edgesFromRefs, hs, ht, hk, Bool.not_true, if_false, Bool.not_false,
            if_true]
          refine ih _ ?_
          intro e he cid hse
          rcases List.mem_append.mp he with hm | hm
          · exact hst e hm cid hse
          · rcases List.mem_singleton.mp hm with rfl
            exact absurd hse (by simp)
      · simp only [edgesFromRefs, hs, ht, Bool.not_true, if_false, Bool.not_false, if_true]
        exact ih st hst
    · simp only [edgesFromRefs, hs, Bool.not_false, if_true]
      exact ih st hst

/-- An extracted reference id is never the empty string: both shapes
contain a colon. -/
theorem extractReference_ref_ne {s : String} {r : ExtractedRef} :
    extractReference s = some r → r.reference ≠ "" := by
  unfold extractReference
  cases hsig : findSigils s with
  | cons tp rest =>
    obtain ⟨t, p⟩ := tp
    intro h
    rcases Option.some.inj h with rfl
    intro he
    have hlen := congrArg String.length he
    rw [String.length_append, String.length_append] at hlen
    have h1 : (":").length = 1 := rfl
    have h0 : ("").length = 0 := rfl
    omega
  | nil =>
    cases hbare : findBares s with
    | cons q rest =>
      intro h
      rcases Option.some.inj h with rfl
      intro he
      have hlen := congrArg String.length he
      rw [String.length_append] at hlen
      have h10 : ("component:").length = 10 := rfl
      have h0 : ("").length = 0 := rfl
      omega
    | nil => intro h; exact absurd h (by simp)

/-- `componentRef` never produces an empty reference id. -/
theorem componentRef_ref_ne {v a : Option Yaml} {r : ExtractedRef} :
    componentRef v a = some r → r.reference ≠ "" := by
  unfold componentRef
  by_cases ha : jsTruthyOpt a = true
  · simp only [ha, if_true]
    by_cases hs : jsToString (a.getD .null) = ""
    · rw [if_pos hs]; intro h; exact absurd h (by simp)
    · rw [if_neg hs]; exact extractReference_ref_ne
  · simp only [ha, if_false, Bool.false_eq_true]
    cases v with
    | none => intro h; exact absurd h (by simp)
    | some y =>
      cases y with
      | str s =>
        by_cases hs : s = ""
        · simp only [if_pos hs]; intro h; exact absurd h (by simp)
        · simp only [if_neg hs]; exact extractReference_ref_ne
      | num n => intro h; exact absurd h (by simp)
      | null => intro h; exact absurd h (by simp)
      | arr l => intro h; exact absurd h (by simp)
      | map es => intro h; exact absurd h (by simp)

/-- Condition flattening never produces an empty reference id. -/
theorem extractCondFuel_ref_ne :
    ∀ (fuel : Nat) (l : List Yaml) (pid : String) (d ci : Nat),
      ∀ c ∈ extractCondFuel fuel l pid d ci, c.reference ≠ some "" := by
  intro fuel
  induction fuel with
  | zero => intro l pid d ci c hc; exact absurd hc (by simp [extractCondFuel])
  | succ fuel ih =>
    intro l pid d ci c hc
    cases l with
    | nil => exact absurd hc (by simp [extractCondFuel])
    | cons cond rest =>
      cases cond with
      | str s =>
        simp only [extractCondFuel] at hc
        rcases List.mem_append.mp hc with hm | hm
        · cases her : extractReference s with
          | none => rw [her] at hm; exact absurd hm (by simp)
          | some r =>
            rw [her] at hm
            rcases List.mem_singleton.mp hm with rfl
            simp only
            intro heq
            exact extractReference_ref_ne her (Option.some.inj heq)
        · exact ih rest pid d (ci + 1) c hm
      | map es =>
        simp only [extractCondFuel] at hc
        by_cases hif : (lookupStr es "if").isSome = true
        · rw [if_pos hif] at hc
          rcases List.mem_cons.mp hc with rfl | hc2
          · simp
          rcases List.mem_append.mp hc2 with hm | hm
          · rcases List.mem_append.mp hm with hm2 | hm2
            · cases hth : lookupStr es "then" with
              | none => rw [hth] at hm2; exact absurd hm2 (by simp)
              | some tv =>
                simp only [hth] at hm2
                by_cases htr : jsTruthy tv = true
                · rw [if_pos htr] at hm2
                  rcases List.mem_cons.mp hm2 with rfl | hm3
                  · simp
                  · exact ih _ _ _ _ c hm3
                · rw [if_neg htr] at hm2; exact absurd hm2 (by simp)
            · cases hel : lookupStr es "else" with
              | none => rw [hel] at hm2; exact absurd hm2 (by simp)
              | some ev =>
                simp only [hel] at hm2
                by_cases htr : jsTruthy ev = true
                · rw [if_pos htr] at hm2
                  rcases List.mem_cons.mp hm2 with rfl | hm3
                  · simp
                  · exact ih _ _ _ _ c hm3
                · rw [if_neg htr] at hm2; exact absurd hm2 (by simp)
          · exact ih rest pid d (ci + 1) c hm
        · rw [if_neg hif] at hc
          exact ih rest pid d ci c hc
      | num n =>
        simp only [extractCondFuel] at hc
        exact ih rest pid d ci c hc
      | null =>
        simp only [extractCondFuel] at hc
        exact ih rest pid d ci c hc
      | arr l2 =>
        simp only [extractCondFuel] at hc
        exact ih rest pid d ci c hc

/-- Component flattening never produces an empty reference id. -/
theorem flattenCompsFuel_ref_ne :
    ∀ (fuel : Nat) (cs : List BmfComponent) (d : Nat),
      ∀ c ∈ flattenCompsFuel fuel cs d, c.reference ≠ some "" := by
  intro fuel
  induction fuel with
  | zero => intro cs d c hc; exact absurd hc (by simp [flattenCompsFuel])
  | succ fuel ih =>
    intro cs d c hc
    cases cs with
    | nil => exact absurd hc (by simp [flattenCompsFuel])
    | cons comp rest =>
      obtain ⟨cid, ctype, cvalue, caction, ccomps⟩ := comp
      simp only [flattenCompsFuel] at hc
      rcases List.mem_cons.mp hc with rfl | hc2
      · simp only
        intro heq
        rcases Option.map_eq_some'.mp heq with ⟨r, hr, hrr⟩
        exact componentRef_ref_ne hr hrr
      rcases List.mem_append.mp hc2 with hm | hm
      · rcases List.mem_append.mp hm with hm2 | hm2
        · by_cases htr : ctype = "trigger"
          · rw [if_pos htr] at hm2
            cases cvalue with
            | none => exact absurd hm2 (by simp)
            | some y =>
              cases y with
              | arr l2 => exact extractCondFuel_ref_ne _ _ _ _ _ c hm2
              | str s => exact absurd hm2 (by simp)
              | num n => exact absurd hm2 (by simp)
              | null => exact absurd hm2 (by simp)
              | map es => exact absurd hm2 (by simp)
          · rw [if_neg htr] at hm2; exact absurd hm2 (by simp)
        · cases ccomps with
          | none => exact absurd hm2 (by simp)
          | some l2 => exact ih l2 (d + 1) c hm2
      · exact ih rest d c hm

/-- No flat component of an entity carries an empty reference id. -/
theorem flatComponentsOf_ref_ne {e : BmfEntity} {id : String} :
    ∀ c ∈ flatComponentsOf e id, c.reference ≠ some "" := by
  intro c hc
  rcases List.mem_append.mp hc with hm | hm
  · exact flattenCompsFuel_ref_ne _ _ _ c hm
  · unfold flattenEffects at hm
    cases heff : e.effects with
    | none => rw [heff] at hm; exact absurd hm (by simp)
    | some y =>
      rw [heff] at hm
      cases y with
      | arr l => exact extractCondFuel_ref_ne _ _ _ _ _ c hm
      | str s => exact absurd hm (by simp)
      | num n => exact absurd hm (by simp)
      | null => exact absurd hm (by simp)
      | map es => exact absurd hm (by simp)

/-- A hit in the prefix of an association list survives an append. -/
theorem lookupStr_append_left {α : Type} :
    ∀ (a b : List (String × α)) (t : String) (v : α),
      lookupStr a t = some v → lookupStr (a ++ b) t = some v := by
  intro a
  induction a with
  | nil => intro b t v h; exact absurd h (by simp [lookupStr])
  | cons kv rest ih =>
    intro b t v h
    obtain ⟨k, w⟩ := kv
    simp only [lookupStr, List.cons_append] at h ⊢
    by_cases hk : k = t
    · rw [if_pos hk] at h ⊢; exact h
    · rw [if_neg hk] at h ⊢; exact ih b t v h

/-- A miss in the prefix of an association list defers to the suffix. -/
theorem lookupStr_append_none_left {α : Type} :
    ∀ (a b : List (String × α)) (t : String),
      lookupStr a t = none → lookupStr (a ++ b) t = lookupStr b t := by
  intro a
  induction a with
  | nil => intro b t _; rfl
  | cons kv rest ih =>
    intro b t h
    obtain ⟨k, w⟩ := kv
    simp only [lookupStr, List.cons_append] at h ⊢
    by_cases hk : k = t
    · rw [if_pos hk] at h; exact absurd h (by simp)
    · rw [if_neg hk] at h ⊢; exact ih b t h

/-- `outgoingGo` only appends to its accumulator. -/
theorem outgoingGo_sub {vis : List String} :
    ∀ (flat : List FlatComponent) (acc : List (String × String)),
      ∃ extra, outgoingGo vis flat acc = acc ++ extra := by
  intro flat
  induction flat with
  | nil => intro acc; exact ⟨[], by simp [outgoingGo]⟩
  | cons comp rest ih =>
    intro acc
    cases hcr : comp.reference with
    | none => simp only [outgoingGo, hcr]; exact ih acc
    | some r =>
      by_cases hr0 : r ≠ ""
      · by_cases hvr : vis.contains r = true
        · by_cases hlk : (lookupStr acc r).isSome = true
          · simp only [outgoingGo, hcr, if_pos hr0, if_pos hvr, if_pos hlk]
            exact ih acc
          · simp only [outgoingGo, hcr, if_pos hr0, if_pos hvr, if_neg hlk]
            obtain ⟨extra, hex⟩ := ih (acc ++ [(r, comp.id)])
            exact ⟨(r, comp.id) :: extra, by rw [hex, List.append_assoc]; rfl⟩
        · simp only [outgoingGo, hcr, if_pos hr0, if_neg hvr]
          exact ih acc
      · simp only [outgoingGo, hcr, if_neg hr0]
        exact ih acc

/-- Key completeness of the per-entity outgoing map: a flat component
with a nonempty, visible reference guarantees an entry for that target. -/
theorem outgoingGo_complete {vis : List String} :
    ∀ (flat : List FlatComponent) (acc : List (String × String)) (t : String),
      (∃ comp ∈ flat, comp.reference = some t) → t ≠ "" → vis.contains t = true →
      (lookupStr (outgoingGo vis flat acc) t).isSome = true := by
  intro flat
  induction flat with
  | nil => intro acc t hex _ _; exact absurd hex (by simp)
  | cons comp rest ih =>
    intro acc t hex ht hv
    obtain ⟨c0, hc0, hr0⟩ := hex
    rcases List.mem_cons.mp hc0 with rfl | htail
    · simp only [outgoingGo, hr0, if_pos ht, if_pos hv]
      by_cases hlk : (lookupStr acc t).isSome = true
      · rw [if_pos hlk]
        obtain ⟨v, hv'⟩ := Option.isSome_iff_exists.mp hlk
        obtain ⟨extra, hex2⟩ := outgoingGo_sub rest acc
        rw [hex2, lookupStr_append_left acc extra t v hv']
        rfl
      · rw [if_neg hlk]
        have hnone : lookupStr acc t = none :=
          Option.not_isSome_iff_eq_none.mp (by simp [hlk])
        have hhit : lookupStr (acc ++ [(t, c0.id)]) t = some c0.id := by
          rw [lookupStr_append_none_left acc _ t hnone]
          simp [lookupStr]
        obtain ⟨extra, hex2⟩ := outgoingGo_sub rest (acc ++ [(t, c0.id)])
        rw [hex2, lookupStr_append_left _ extra t c0.id hhit]
        rfl
    · simp only [outgoingGo]
      exact ih _ t ⟨c0, htail, hr0⟩ ht hv

/-- `outgoingEdgesGo` only appends to its accumulator. -/
theorem outgoingEdgesGo_sub {p : ParsedBmf} {vis : List String} :
    ∀ (l : List (String × BmfEntity)) (acc : List (String × List (String × String))),
      ∃ extra, outgoingEdgesGo p vis l acc = acc ++ extra := by
  intro l
  induction l with
  | nil => intro acc; exact ⟨[], by simp [outgoingEdgesGo]⟩
  | cons idE rest ih =>
    intro acc
    obtain ⟨id, e⟩ := idE
    by_cases hv : vis.contains id = true
    · simp only [outgoingEdgesGo, hv, if_true]
      obtain ⟨extra, hex⟩ := ih (acc ++ [(id, outgoingGo vis (flatComponentsOf e id) [])])
      exact ⟨(id, outgoingGo vis (flatComponentsOf e id) []) :: extra,
        by rw [hex, List.append_assoc]; rfl⟩
    · simp only [outgoingEdgesGo, hv, if_false]
      exact ih acc

/-- Every visible entity contributes its outgoing map to the second-pass
list. -/
theorem outgoingEdgesGo_complete {p : ParsedBmf} {vis : List String} :
    ∀ (l : List (String × BmfEntity)) (acc : List (String × List (String × String)))
      (id : String) (ent : BmfEntity),
      (id, ent) ∈ l → vis.contains id = true →
      (id, outgoingGo vis (flatComponentsOf ent id) []) ∈ outgoingEdgesGo p vis l acc := by
  intro l
  induction l with
  | nil => intro acc id ent hm _; exact absurd hm (by simp)
  | cons idE rest ih =>
    intro acc id ent hm hv
    obtain ⟨id0, e0⟩ := idE
    rcases List.mem_cons.mp hm with heq | htail
    · obtain ⟨h1, h2⟩ := Prod.mk.inj heq
      subst h1; subst h2
      simp only [outgoingEdgesGo, hv, if_true]
      obtain ⟨extra, hex⟩ := outgoingEdgesGo_sub rest
        (acc ++ [(id, outgoingGo vis (flatComponentsOf ent id) [])])
      rw [hex]
      exact List.mem_append_left _ (List.mem_append_right _ (List.mem_singleton_self _))
    · simp only [outgoingEdgesGo]
      exact ih _ id ent htail hv

/-- The inner third-pass loop only appends keys. -/
theorem edgesFromTargets_keys_sub {p : ParsedBmf} {sourceId : String} :
    ∀ (targets : List (String × String)) (st : List String × List BmfGraphEdge) (k : String),
      k ∈ st.1 → k ∈ (edgesFromTargets p sourceId targets st).1 := by
  intro targets
  induction targets with
  | nil => intro st k hk; exact hk
  | cons tc rest ih =>
    intro st k hk
    obtain ⟨targetId, componentId⟩ := tc
    by_cases hc : st.1.contains (sourceId ++ "->" ++ targetId) = true
    · simp only [edgesFromTargets, hc, if_true]; exact ih st k hk
    · simp only [edgesFromTargets, hc, if_false]
      exact ih _ k (List.mem_append_left _ hk)

/-- The outer third-pass loop only appends keys. -/
theorem edgesFromOutgoing_keys_sub {p : ParsedBmf} :
    ∀ (og : List (String × List (String × String))) (st : List String × List BmfGraphEdge)
      (k : String), k ∈ st.1 → k ∈ (edgesFromOutgoing p og st).1 := by
  intro og
  induction og with
  | nil => intro st k hk; exact hk
  | cons s rest ih =>
    intro st k hk
    obtain ⟨sourceId, targets⟩ := s
    simp only [edgesFromOutgoing]
    exact ih _ k (edgesFromTargets_keys_sub targets st k hk)

/-- Every (target, component) pair processed by the inner third-pass
loop leaves its `source->target` key recorded. -/
theorem edgesFromTargets_keys {p : ParsedBmf} {sourceId : String} :
    ∀ (targets : List (String × String)) (st : List String × List BmfGraphEdge)
      (t cid : String), (t, cid) ∈ targets →
      sourceId ++ "->" ++ t ∈ (edgesFromTargets p sourceId targets st).1 := by
  intro targets
  induction targets with
  | nil => intro st t cid hm; exact absurd hm (by simp)
  | cons tc rest ih =>
    intro st t cid hm
    obtain ⟨targetId, componentId⟩ := tc
    rcases List.mem_cons.mp hm with heq | htail
    · obtain ⟨h1, h2⟩ := Prod.mk.inj heq
      subst h1; subst h2
      by_cases hc : st.1.contains (sourceId ++ "->" ++ t) = true
      · simp only [edgesFromTargets, hc, if_true]
        exact edgesFromTargets_keys_sub rest st _ (contains_iff.mp hc)
      · simp only [edgesFromTargets, hc, if_false]
        exact edgesFromTargets_keys_sub rest _ _
          (List.mem_append_right _ (List.mem_singleton_self _))
    · by_cases hc : st.1.contains (sourceId ++ "->" ++ targetId) = true
      · simp only [edgesFromTargets, hc, if_true]; exact ih st t cid htail
      · simp only [edgesFromTargets, hc, if_false]; exact ih _ t cid htail

/-- Every (source, target, component) triple of the outgoing maps leaves
its key recorded by the third pass. -/
theorem edgesFromOutgoing_keys {p : ParsedBmf} :
    ∀ (og : List (String × List (String × String))) (st : List String × List BmfGraphEdge)
      (s : String) (ts : List (String × String)) (t cid : String),
      (s, ts) ∈ og → (t, cid) ∈ ts →
      s ++ "->" ++ t ∈ (edgesFromOutgoing p og st).1 := by
  intro og
  induction og with
  | nil => intro st s ts t cid hm _; exact absurd hm (by simp)
  | cons s0 rest ih =>
    intro st s ts t cid hm hts
    obtain ⟨sourceId, targets⟩ := s0
    rcases List.mem_cons.mp hm with heq | htail
    · obtain ⟨h1, h2⟩ := Prod.mk.inj heq
      subst h1; subst h2
      simp only [edgesFromOutgoing]
      exact edgesFromOutgoing_keys_sub rest _ _ (edgesFromTargets_keys ts st t cid hts)
    · simp only [edgesFromOutgoing]
      exact ih _ s ts t cid htail hts

/-- Every edge the inner third-pass loop pushes is anchored. -/
theorem edgesFromTargets_all_some {p : ParsedBmf} {sourceId : String} :
    ∀ (targets : List (String × String)) (st : List String × List BmfGraphEdge),
      (∀ e ∈ st.2, e.sourceElement.isSome = true) →
      ∀ e ∈ (edgesFromTargets p sourceId targets st).2, e.sourceElement.isSome = true := by
  intro targets
  induction targets with
  | nil => intro st h; exact h
  | cons tc rest ih =>
    intro st h
    obtain ⟨targetId, componentId⟩ := tc
    by_cases hc : st.1.contains (sourceId ++ "->" ++ targetId) = true
    · simp only [edgesFromTargets, hc, if_true]; exact ih st h
    · simp only [edgesFromTargets, hc, if_false]
      refine ih _ ?_
      intro e he
      rcases List.mem_append.mp he with hm | hm
      · exact h e hm
      · rcases List.mem_singleton.mp hm with rfl; rfl

/-- Every edge the third pass pushes is anchored. -/
theorem edgesFromOutgoing_all_some {p : ParsedBmf} :
    ∀ (og : List (String × List (String × String))) (st : List String × List BmfGraphEdge),
      (∀ e ∈ st.2, e.sourceElement.isSome = true) →
      ∀ e ∈ (edgesFromOutgoing p og st).2, e.sourceElement.isSome = true := by
  intro og
  induction og with
  | nil => intro st h; exact h
  | cons s rest ih =>
    intro st h
    obtain ⟨sourceId, targets⟩ := s
    simp only [edgesFromOutgoing]
    exact ih _ (edgesFromTargets_all_some targets st h)

/-- Through the fourth pass: if every key with a flat-component candidate
for a visible pair is already recorded, every unanchored edge in the
result has no flat-component candidate for its pair. -/
theorem edgesFromRefs_no_candidate {p : ParsedBmf} {vis : List String} :
    ∀ (refs : List BmfReference) (st : List String × List BmfGraphEdge),
      (∀ s t, vis.contains s = true → vis.contains t = true →
        (∃ ent comp, lookupStr p.entities s = some ent ∧
          comp ∈ flatComponentsOf ent s ∧ comp.reference = some t) →
        s ++ "->" ++ t ∈ st.1) →
      (∀ e ∈ st.2, e.sourceElement = none →
        ¬∃ ent comp, lookupStr p.entities e.source = some ent ∧
          comp ∈ flatComponentsOf ent e.source ∧ comp.reference = some e.target) →
      ∀ e ∈ (edgesFromRefs p vis refs st).2, e.sourceElement = none →
        ¬∃ ent comp, lookupStr p.entities e.source = some ent ∧
          comp ∈ flatComponentsOf ent e.source ∧ comp.reference = some e.target := by
  intro refs
  induction refs with
  | nil => intro st _ hst; exact hst
  | cons ref rest ih =>
    intro st hkeys hst
    by_cases hs : vis.contains ref.source = true
    · by_cases ht : vis.contains ref.target = true
      · by_cases hk : st.1.contains (ref.source ++ "->" ++ ref.target) = true
        · simp only [edgesFromRefs, hs, ht, hk, Bool.not_true, if_false, Bool.not_false,
            if_true]
          exact ih st hkeys hst
        · simp only [edgesFromRefs, hs, ht, hk, Bool.not_true, if_false, Bool.not_false,
            if_true]
          refine ih _ (fun s t hvs hvt hc =>
            List.mem_append_left _ (hkeys s t hvs hvt hc)) ?_
          intro e he hse
          rcases List.mem_append.mp he with hm | hm
          · exact hst e hm hse
          · rcases List.mem_singleton.mp hm with rfl
            intro hcand
            exact hk (contains_iff.mpr (hkeys ref.source ref.target hs ht hcand))
      · simp only [edgesFromRefs, hs, ht, Bool.not_true, if_false, Bool.not_false, if_true]
        exact ih st hkeys hst
    · simp only [edgesFromRefs, hs, Bool.not_false, if_true]
      exact ih st hkeys hst

/-- C7: for a parse with duplicate-free entity keys, the built graph has
at most one edge per ordered (source, target) pair; every anchored edge's
anchor is the id of the *first* flattened component (in flatten order) of
the source entity referencing the target; and whenever some flattened
component of the source entity references the target, the emitted edge
for that pair is anchored (component-derived edges take precedence over
raw-reference edges). -/
theorem c7_edge_dedup_first_writer (p : ParsedBmf)
    (hnd : (p.entities.map Prod.fst).Nodup) :
    (∀ a ∈ (buildGraph p).edges, ∀ b ∈ (buildGraph p).edges,
      a.source = b.source → a.target = b.target → a = b) ∧
    (∀ e ∈ (buildGraph p).edges, ∀ cid, e.sourceElement = some cid →
      ∃ ent comp, lookupStr p.entities e.source = some ent ∧
        (flatComponentsOf ent e.source).find? (fun c => c.reference == some e.target) =
          some comp ∧ comp.id = cid) ∧
    (∀ e ∈ (buildGraph p).edges,
      (∃ ent comp, lookupStr p.entities e.source = some ent ∧
        comp ∈ flatComponentsOf ent e.source ∧ comp.reference = some e.target) →
      e.sourceElement.isSome = true) := by
  have hedges : (buildGraph p).edges =
      (edgesFromRefs p (visibleOf p) p.references
        (edgesFromOutgoing p (outgoingEdgesGo p (visibleOf p) p.entities [])
          ([], []))).2 := rfl
  rw [hedges]
  have hogspec : ∀ s ts, (s, ts) ∈ outgoingEdgesGo p (visibleOf p) p.entities [] →
      ∀ t cid, (t, cid) ∈ ts →
      ∃ ent comp, lookupStr p.entities s = some ent ∧
        (flatComponentsOf ent s).find? (fun c => c.reference == some t) =
          some comp ∧ comp.id = cid := by
    intro s ts hm t cid hts
    rcases outgoingEdgesGo_mem p.entities [] s ts hm with habs | ⟨ent, hm2, _, hts2⟩
    · exact absurd habs (by simp)
    · subst hts2
      rcases outgoingGo_mem _ [] t cid hts with habs | ⟨_, _, _, comp, hfind, hcid⟩
      · exact absurd habs (by simp)
      · exact ⟨ent, comp, lookupStr_eq_of_mem_nodup hnd hm2, hfind, hcid⟩
  refine ⟨?_, ?_, ?_⟩
  · obtain ⟨_, hinv1, hnd1⟩ := edgesFromOutgoing_inv
      (outgoingEdgesGo p (visibleOf p) p.entities []) ([], []) (by simp) (by simp)
    obtain ⟨_, hinv2, hnd2⟩ := edgesFromRefs_inv p.references _ hinv1 hnd1
    intro a ha b hb hsrc htgt
    have hid : a.id = b.id := by rw [(hinv2 a ha).2, (hinv2 b hb).2, hsrc, htgt]
    exact List.inj_on_of_nodup_map hnd2 ha hb hid
  · refine edgesFromRefs_anchor p.references _
      (edgesFromOutgoing_anchor _ ([], []) hogspec (by simp))
  · have hkeys : ∀ s t, (visibleOf p).contains s = true →
        (visibleOf p).contains t = true →
        (∃ ent comp, lookupStr p.entities s = some ent ∧
          comp ∈ flatComponentsOf ent s ∧ comp.reference = some t) →
        s ++ "->" ++ t ∈ (edgesFromOutgoing p
          (outgoingEdgesGo p (visibleOf p) p.entities []) ([], [])).1 := by
      intro s t hvs hvt hc
      obtain ⟨ent, comp, hlook, hcm, hcr⟩ := hc
      have hog : (s, outgoingGo (visibleOf p) (flatComponentsOf ent s) []) ∈
          outgoingEdgesGo p (visibleOf p) p.entities [] :=
        outgoingEdgesGo_complete p.entities [] s ent (lookupStr_mem hlook) hvs
      have ht0 : t ≠ "" := by
        intro he
        exact flatComponentsOf_ref_ne comp hcm (he ▸ hcr)
      have hlk := outgoingGo_complete (flatComponentsOf ent s) [] t
        ⟨comp, hcm, hcr⟩ ht0 hvt
      obtain ⟨cid, hcid⟩ := Option.isSome_iff_exists.mp hlk
      exact edgesFromOutgoing_keys _ ([], []) s _ t cid hog (lookupStr_mem hcid)
    have hnone := edgesFromRefs_no_candidate p.references _ hkeys
      (fun e he hse => absurd (edgesFromOutgoing_all_some _ ([], [])
        (by simp) e he) (by rw [hse]; simp))
    intro e he hc
    cases hse : e.sourceElement with
    | some cid => rfl
    | none => exact absurd hc (hnone e he hse)

/-- C7 witness: the theorem at the parsed scenario-1 document, whose
entity keys are duplicate-free. -/
theorem c7_witness :
    ((parseBmfValue docFinish).entities.map Prod.fst).Nodup ∧
    ((∀ a ∈ (buildGraph (parseBmfValue docFinish)).edges,
      ∀ b ∈ (buildGraph (parseBmfValue docFinish)).edges,
      a.source = b.source → a.target = b.target → a = b) ∧
    (∀ e ∈ (buildGraph (parseBmfValue docFinish)).edges, ∀ cid,
      e.sourceElement = some cid →
      ∃ ent comp, lookupStr (parseBmfValue docFinish).entities e.source = some ent ∧
        (flatComponentsOf ent e.source).find? (fun c => c.reference == some e.target) =
          some comp ∧ comp.id = cid) ∧
    (∀ e ∈ (buildGraph (parseBmfValue docFinish)).edges,
      (∃ ent comp, lookupStr (parseBmfValue docFinish).entities e.source = some ent ∧
        comp ∈ flatComponentsOf ent e.source ∧ comp.reference = some e.target) →
      e.sourceElement.isSome = true)) :=
  ⟨by decide, c7_edge_dedup_first_writer (parseBmfValue docFinish) (by decide)⟩

/-- With enough fuel, every component of a list contributes a flat entry
carrying its own id and the reference resolved by `componentRef` from
its own `value`/`action` fields. -/
theorem flattenCompsFuel_entry :
    ∀ (fuel : Nat) (cs : List BmfComponent) (d : Nat), cListSize cs ≤ fuel →
      ∀ c ∈ cs, ∃ fc ∈ flattenCompsFuel fuel cs d, fc.id = c.id ∧
        fc.reference = (componentRef c.value c.action).map (fun r => r.reference) ∧
        fc.referenceType = (componentRef c.value c.action).map (fun r => r.referenceType) := by
  intro fuel
  induction fuel with
  | zero =>
    intro cs d hle c hc
    cases cs with
    | nil => exact absurd hc (by simp)
    | cons comp rest => simp [cListSize] at hle
  | succ fuel ih =>
    intro cs d hle c hc
    cases cs with
    | nil => exact absurd hc (by simp)
    | cons comp rest =>
      rcases List.mem_cons.mp hc with rfl | htail
      · obtain ⟨cid, ctype, cvalue, caction, ccomps⟩ := c
        refine ⟨⟨cid, ctype, d,
          (componentRef cvalue caction).map (fun r => r.reference),
          (componentRef cvalue caction).map (fun r => r.referenceType)⟩, ?_, rfl, rfl, rfl⟩
        simp only [flattenCompsFuel]
        exact List.mem_cons_self _ _
      · have hle' : cListSize rest ≤ fuel := by
          simp only [cListSize] at hle
          omega
        obtain ⟨fc, hfc, hid, href, hrt⟩ := ih rest d hle' c htail
        obtain ⟨cid, ctype, cvalue, caction, ccomps⟩ := comp
        refine ⟨fc, ?_, hid, href, hrt⟩
        simp only [flattenCompsFuel]
        exact List.mem_cons_of_mem _ (List.mem_append_right _ hfc)

/-- C10 counterexample: in `"component:x $screen:y"` the bare component
match `component:x` starts at the beginning of the string and the sigil
match `$screen:y` only later, yet the flat entry's resolved reference is
`screen:y` — the sigil pattern is tried over the whole string first, so
the positionally first match is *not* the one used. -/
theorem c10_counterexample :
    (flattenCompsList [compBareThenSigil] 0).map (fun c => c.reference) =
        [some "screen:y"] ∧
    findBares "component:x $screen:y" = ["x"] ∧
    findSigils "component:x $screen:y" = [("screen", "y")] ∧
    "component:x $screen:y".toList.take 12 = "component:x ".toList ∧
    ¬ (flattenCompsList [compBareThenSigil] 0).map (fun c => c.reference) =
        [some "component:x"] := by
  refine ⟨by decide, by decide, by decide, by decide, by decide⟩

/-- C10 (amended): every component's flat entry resolves its anchor via
`componentRef` on that component's own `value` and `action` fields
(other fields never contribute); `componentRef` stringifies a truthy
`action`, else takes a string `value`, and rejects the empty string; and
`extractReference` uses the head of the sigil-match list — the first
sigil match anywhere in the string — falling back to the first bare
component match only when the string contains no sigil match at all. -/
theorem c10_anchor_amended :
    (∀ (cs : List BmfComponent) (d : Nat), ∀ c ∈ cs,
      ∃ fc ∈ flattenCompsList cs d, fc.id = c.id ∧
        fc.reference = (componentRef c.value c.action).map (fun r => r.reference) ∧
        fc.referenceType = (componentRef c.value c.action).map (fun r => r.referenceType)) ∧
    (∀ (t pa : String) (s : String) (rest : List (String × String)),
      findSigils s = (t, pa) :: rest →
      extractReference s = some ⟨t ++ ":" ++ dotsToColons pa, t⟩) ∧
    (∀ (q : String) (s : String) (rest : List String),
      findSigils s = [] → findBares s = q :: rest →
      extractReference s = some ⟨"component:" ++ dotsToColons q, "component"⟩) ∧
    (∀ (s : String), findSigils s = [] → findBares s = [] →
      extractReference s = none) := by
  refine ⟨?_, ?_, ?_, ?_⟩
  · intro cs d c hc
    exact flattenCompsFuel_entry (cListSize cs) cs d (Nat.le_refl _) c hc
  · intro t pa s rest h
    simp only [extractReference, h]
  · intro q s rest hsig hbare
    simp only [extractReference, hsig, hbare]
  · intro s hsig hbare
    simp only [extractReference, hsig, hbare]

/-- C10 witness: the amended theorem at the bare-then-sigil component
and its value string. -/
theorem c10_witness :
    (∃ fc ∈ flattenCompsList [compBareThenSigil] 0, fc.id = compBareThenSigil.id ∧
      fc.reference = (componentRef compBareThenSigil.value compBareThenSigil.action).map
        (fun r => r.reference) ∧
      fc.referenceType = (componentRef compBareThenSigil.value compBareThenSigil.action).map
        (fun r => r.referenceType)) ∧
    extractReference "component:x $screen:y" =
      some ⟨"screen" ++ ":" ++ dotsToColons "y", "screen"⟩ :=
  ⟨c10_anchor_amended.1 [compBareThenSigil] 0 compBareThenSigil
      (List.mem_cons_self _ _),
    c10_anchor_amended.2.1 "screen" "y" "component:x $screen:y" [] (by decide)⟩
